import Mathlib

/-!
# PenBins `cve` tool: merge, sort, cache and report

A shallow embedding of `src/cve/cve.go`.

* A Go `string` is a finite sequence of bytes; it is modelled as a list of
  natural numbers (each byte is a number below 256).
* A Go slice of records is modelled as a list; where the distinction between
  a `nil` slice and an empty slice is observable (JSON encoding) the slice is
  an `Option (List CVE)` with `none` standing for `nil`.
* The channel read by `combineCVEs` is closed before it is read, so it is
  modelled by the list of batches in the order they are received.
-/

namespace PenBins

/-- A Go string: its bytes, in order. -/
abbrev GoString := List Nat

/-- Bytes of an ASCII literal (every character of the literal is below 128). -/
def ascii (s : String) : GoString := s.toList.map Char.toNat

/-- Record of one vulnerability entry: `type CVE struct`. -/
structure CVE where
  Name : GoString
  Description : GoString
  Link : GoString
deriving DecidableEq, Repr, Inhabited

/-! ## combineCVEs -/

/-- Local state of `combineCVEs`: the local `seenCVEs` and the caller's `*cveList`. -/
structure CombineState where
  seenCVEs : List GoString
  cveList : List CVE
deriving DecidableEq, Repr

/-- Inner loop of `combineCVEs`: scans `*cveList` for a record whose name equals
the name of `currCVE`; `duplicate` is set at the first hit. -/
def isDuplicate : List CVE → CVE → Bool
  | [], _ => false
  | seenCVE :: rest, currCVE =>
    if seenCVE.Name = currCVE.Name then true else isDuplicate rest currCVE

/-- Body of the loop over the records of one batch. -/
def combineStep (st : CombineState) (currCVE : CVE) : CombineState :=
  if isDuplicate st.cveList currCVE then st
  else { seenCVEs := st.seenCVEs ++ [currCVE.Name], cveList := st.cveList ++ [currCVE] }

/-- Loop over one batch received from the channel. -/
def combineBatch (st : CombineState) (result : List CVE) : CombineState :=
  result.foldl combineStep st

/-- Whole of `combineCVEs`: `resultChan` holds the batches in the order in which
they are received, `cveList` is the initial value of `*cveList`; the value is the
final `*cveList`. -/
def combineCVEs (resultChan : List (List CVE)) (cveList : List CVE) : List CVE :=
  (resultChan.foldl combineBatch { seenCVEs := [], cveList := cveList }).cveList

/-- Specification of the merge, in the words of the specification: the list `l`
with every record whose name already occurred earlier in `l` removed. -/
def removeEarlierNames (l : List CVE) : List CVE :=
  (l.enum.filter fun p => !((l.take p.1).any fun c => decide (c.Name = p.2.Name))).map Prod.snd

/-- Sequential form of the deduplication: `acc` is what has been kept so far. -/
def dedupInto (acc : List CVE) : List CVE → List CVE
  | [] => acc
  | c :: rest =>
    if acc.any (fun s => decide (s.Name = c.Name)) then dedupInto acc rest
    else dedupInto (acc ++ [c]) rest


/-! ## Library functions on strings

Package `unicode/utf8` and package `strings` of the Go standard library,
modelled from their documented behaviour. Masks and shifts of the library are
written with `%`, `/` and `*`. The case tables of package `unicode` are not
reproduced: they are a parameter. -/

/-- The rune `utf8.RuneError` (U+FFFD). -/
def RuneError : Nat := 0xFFFD

/-- Model of `utf8.DecodeRune` (and of `utf8.DecodeRuneInString`, and of one step
of a `range` loop over a string): the first rune of `p` and its width in bytes;
`(RuneError, 1)` for an invalid encoding, `(RuneError, 0)` for the empty input. -/
def DecodeRune (p : GoString) : Nat × Nat :=
  match p with
  | [] => (RuneError, 0)
  | p0 :: rest =>
    if p0 < 0x80 then (p0, 1)
    else if p0 < 0xC2 ∨ 0xF4 < p0 then (RuneError, 1)
    else
      let sz := if p0 < 0xE0 then 2 else if p0 < 0xF0 then 3 else 4
      let lo := if p0 = 0xE0 then 0xA0 else if p0 = 0xF0 then 0x90 else 0x80
      let hi := if p0 = 0xED then 0x9F else if p0 = 0xF4 then 0x8F else 0xBF
      if p.length < sz then (RuneError, 1)
      else
        match rest with
        | [] => (RuneError, 1)
        | b1 :: rest1 =>
          if b1 < lo ∨ hi < b1 then (RuneError, 1)
          else if sz ≤ 2 then (p0 % 32 * 64 + b1 % 64, 2)
          else
            match rest1 with
            | [] => (RuneError, 1)
            | b2 :: rest2 =>
              if b2 < 0x80 ∨ 0xBF < b2 then (RuneError, 1)
              else if sz ≤ 3 then (p0 % 16 * 4096 + b1 % 64 * 64 + b2 % 64, 3)
              else
                match rest2 with
                | [] => (RuneError, 1)
                | b3 :: _ =>
                  if b3 < 0x80 ∨ 0xBF < b3 then (RuneError, 1)
                  else (p0 % 8 * 262144 + b1 % 64 * 4096 + b2 % 64 * 64 + b3 % 64, 4)

/-- Flat case analysis of a decoding step. -/
inductive Decoded (p : GoString) : Nat × Nat → Prop
  | empty : p = [] → Decoded p (RuneError, 0)
  | one (b : Nat) (rest : GoString) : p = b :: rest → b < 0x80 → Decoded p (b, 1)
  | bad (b : Nat) (rest : GoString) : p = b :: rest → 0x80 ≤ b → Decoded p (RuneError, 1)
  | two (b0 b1 : Nat) (rest : GoString) : p = b0 :: b1 :: rest → 0xC2 ≤ b0 → b0 < 0xE0 →
      0x80 ≤ b1 → b1 ≤ 0xBF → Decoded p (b0 % 32 * 64 + b1 % 64, 2)
  | three (b0 b1 b2 : Nat) (rest : GoString) : p = b0 :: b1 :: b2 :: rest → 0xE0 ≤ b0 → b0 < 0xF0 →
      0x80 ≤ b1 → b1 ≤ 0xBF → (b0 = 0xE0 → 0xA0 ≤ b1) → (b0 = 0xED → b1 ≤ 0x9F) →
      0x80 ≤ b2 → b2 ≤ 0xBF → Decoded p (b0 % 16 * 4096 + b1 % 64 * 64 + b2 % 64, 3)
  | four (b0 b1 b2 b3 : Nat) (rest : GoString) : p = b0 :: b1 :: b2 :: b3 :: rest →
      0xF0 ≤ b0 → b0 ≤ 0xF4 →
      0x80 ≤ b1 → b1 ≤ 0xBF → (b0 = 0xF0 → 0x90 ≤ b1) → (b0 = 0xF4 → b1 ≤ 0x8F) →
      0x80 ≤ b2 → b2 ≤ 0xBF → 0x80 ≤ b3 → b3 ≤ 0xBF →
      Decoded p (b0 % 8 * 262144 + b1 % 64 * 4096 + b2 % 64 * 64 + b3 % 64, 4)

/-- Model of `utf8.EncodeRune` (and `utf8.AppendRune`, `Builder.WriteRune`): the
bytes written for the rune `r`; a surrogate or a value above `utf8.MaxRune` is
written as `RuneError`. -/
def EncodeRune (r : Nat) : GoString :=
  if r ≤ 0x7F then [r]
  else if r ≤ 0x7FF then [0xC0 + r / 64, 0x80 + r % 64]
  else if 0x10FFFF < r ∨ (0xD800 ≤ r ∧ r ≤ 0xDFFF) then [0xEF, 0xBF, 0xBD]
  else if r ≤ 0xFFFF then [0xE0 + r / 4096, 0x80 + r / 64 % 64, 0x80 + r % 64]
  else [0xF0 + r / 262144, 0x80 + r / 4096 % 64, 0x80 + r / 64 % 64, 0x80 + r % 64]

/-- Model of `utf8.ValidString`: every rune of `s` decodes without error. The
first argument bounds the number of runes read; `s.length` suffices. -/
def validStringLoop : Nat → GoString → Bool
  | _, [] => true
  | 0, _ :: _ => false
  | fuel + 1, b :: rest =>
    let d := DecodeRune (b :: rest)
    if d.1 = RuneError ∧ d.2 = 1 then false
    else validStringLoop fuel ((b :: rest).drop d.2)

/-- Model of `utf8.ValidString`. -/
def ValidString (s : GoString) : Bool := validStringLoop s.length s

/-- The parts of the tables of package `unicode` that the program reaches: the
lower-case mapping and the case-folding representative of the runes above
`unicode.MaxASCII`. -/
structure UnicodeTables where
  toLower : Nat → Nat
  foldRune : Nat → Nat

/-- Model of `unicode.ToLower`: computed for ASCII, read from the table otherwise. -/
def unicodeToLower (U : UnicodeTables) (r : Nat) : Nat :=
  if r ≤ 0x7F then (if 65 ≤ r ∧ r ≤ 90 then r + 32 else r) else U.toLower r

/-- Loop of `strings.Map(mapping, s)`: every rune of `s` (an invalid byte reads as
`RuneError`) is replaced by the encoding of its image. The first argument bounds
the number of runes; `s.length` suffices. -/
def mapLoop (mapping : Nat → Nat) : Nat → GoString → GoString
  | _, [] => []
  | 0, _ :: _ => []
  | fuel + 1, b :: rest =>
    let d := DecodeRune (b :: rest)
    EncodeRune (mapping d.1) ++ mapLoop mapping fuel ((b :: rest).drop d.2)

/-- Model of `strings.Map(mapping, s)` for a mapping without negative values. -/
def Map (mapping : Nat → Nat) (s : GoString) : GoString := mapLoop mapping s.length s

/-- Model of `strings.ToLower`: the ASCII fast path, and `Map(unicode.ToLower, s)`
when `s` has a byte outside ASCII. -/
def ToLower (U : UnicodeTables) (s : GoString) : GoString :=
  if s.all (fun c => decide (c < 0x80)) then
    if s.any (fun c => decide (65 ≤ c ∧ c ≤ 90)) then
      s.map fun c => if 65 ≤ c ∧ c ≤ 90 then c + 32 else c
    else s
  else Map (unicodeToLower U) s

/-- Model of `strings.Index(s, substr)`: the index of the first occurrence of
`substr` in `s`, or `-1`. -/
def Index : GoString → GoString → Int
  | [], substr => if substr = [] then 0 else -1
  | b :: rest, substr =>
    if substr.isPrefixOf (b :: rest) then 0
    else
      let i := Index rest substr
      if i < 0 then -1 else i + 1

/-- Model of `strings.Contains(s, substr)`. -/
def Contains (s substr : GoString) : Bool := decide (Index s substr ≥ 0)

/-- Model of `strings.Join(elems, sep)`. -/
def Join : List GoString → GoString → GoString
  | [], _ => []
  | [e], _ => e
  | e :: rest, sep => e ++ sep ++ Join rest sep

/-! ## Library functions used by the sort step

`strings.Replace`, `strconv.Atoi` (with `strconv.ParseInt` and
`strconv.ParseUint`) and `sort.Slice` belong to the Go standard library; they
are modelled from the library. -/

/-- Worker of `Replace`: `skip` counts the bytes of a match of `old` that are
still to be dropped. -/
def replaceFrom (old new : GoString) : Nat → GoString → GoString
  | _, [] => []
  | skip + 1, _ :: rest => replaceFrom old new skip rest
  | 0, b :: rest =>
    if old.isPrefixOf (b :: rest) then new ++ replaceFrom old new (old.length - 1) rest
    else b :: replaceFrom old new 0 rest

/-- Model of `strings.Replace(s, old, new, -1)` for a non-empty `old` (every call
of the program has a non-empty `old`): the non-overlapping occurrences of `old`
are replaced by `new`, from left to right. -/
def Replace (s old new : GoString) : GoString := replaceFrom old new 0 s

/-- Error of a numeric conversion: `strconv.ErrSyntax` or `strconv.ErrRange`. -/
inductive NumError where
  | syntaxError
  | rangeError
deriving DecidableEq, Repr

/-- Loop of `strconv.ParseUint(s, 10, bitSize)` over the bytes of `s`, `n` is the
value read so far. `cutoff` is `maxUint64/10 + 1`. -/
def parseUintLoop (bitSize : Nat) : Nat → GoString → Nat × Option NumError
  | n, [] => (n, none)
  | n, c :: rest =>
    if 48 ≤ c ∧ c ≤ 57 then
      if n ≥ (2 ^ 64 - 1) / 10 + 1 then (2 ^ bitSize - 1, some .rangeError)
      else
        let n1 := n * 10 + (c - 48)
        if n1 ≥ 2 ^ 64 ∨ n1 > 2 ^ bitSize - 1 then (2 ^ bitSize - 1, some .rangeError)
        else parseUintLoop bitSize n1 rest
    else (0, some .syntaxError)

/-- Model of `strconv.ParseUint(s, 10, bitSize)` for `bitSize` 32 or 64. -/
def ParseUint (bitSize : Nat) (s : GoString) : Nat × Option NumError :=
  if s = [] then (0, some .syntaxError) else parseUintLoop bitSize 0 s

/-- Model of `strconv.ParseInt(s, 10, 0)` on a platform whose `int` has `intSize`
bits: a sign is read, the digits go to `ParseUint`, a value out of range is
replaced by the nearest bound. -/
def ParseInt (intSize : Nat) (s : GoString) : Int × Option NumError :=
  match s with
  | [] => (0, some .syntaxError)
  | c :: rest =>
    let neg := c = 45
    let digits := if c = 43 ∨ c = 45 then rest else s
    match ParseUint intSize digits with
    | (_, some .syntaxError) => (0, some .syntaxError)
    | (un, _) =>
      let cutoff := 2 ^ (intSize - 1)
      if ¬ neg ∧ un ≥ cutoff then ((cutoff : Int) - 1, some .rangeError)
      else if neg ∧ un > cutoff then (-(cutoff : Int), some .rangeError)
      else (if neg then -(un : Int) else (un : Int), none)

/-- Fast path of `strconv.Atoi` for short strings: the loop over the digits. -/
def atoiFastLoop : Nat → GoString → Option Nat
  | n, [] => some n
  | n, ch :: rest =>
    if 48 ≤ ch ∧ ch ≤ 57 then atoiFastLoop (n * 10 + (ch - 48)) rest else none

/-- Model of `strconv.Atoi(s)` on a platform whose `int` has `intSize` bits
(32 or 64): the value and the error. -/
def Atoi (intSize : Nat) (s : GoString) : Int × Option NumError :=
  if (intSize = 32 ∧ 0 < s.length ∧ s.length < 10) ∨
      (intSize = 64 ∧ 0 < s.length ∧ s.length < 19) then
    match s with
    | [] => (0, some .syntaxError)
    | c :: rest =>
      let digits := if c = 45 ∨ c = 43 then rest else s
      if digits.length < 1 then (0, some .syntaxError)
      else
        match atoiFastLoop 0 digits with
        | none => (0, some .syntaxError)
        | some n => (if c = 45 then -(n : Int) else (n : Int), none)
  else ParseInt intSize s

/-! ## Package sort

`sort.Slice(x, less)` calls `pdqsort_func(lessSwap{less, swap}, 0, length,
bits.Len(uint(length)))`. The functions of the generated file `zsortfunc.go` are
modelled one by one. The slice is a list; `nth data i` is the element at index
`i`, `data.Less(i, j)` is `less (nth data i) (nth data j)` and `data.Swap(i, j)`
is `swap data i j`. A loop is a recursion on the number of index positions it
still has to visit. -/

/-- The element `data[i]`; the program reads no index outside the slice. -/
def nth {α : Type} [Inhabited α] (data : List α) (i : Nat) : α := data.getD i default

/-- The slice after `data.Swap(i, j)`. -/
def swap {α : Type} [Inhabited α] (data : List α) (i j : Nat) : List α :=
  (data.set i (nth data j)).set j (nth data i)

/-- Inner loop of `insertionSort_func`:
`for j := i; j > a && data.Less(j, j-1); j-- { data.Swap(j, j-1) }`. -/
def insertionInner {α : Type} [Inhabited α] (less : α → α → Bool) (a : Nat) : Nat → List α → List α
  | 0, data => data
  | j + 1, data =>
    if j + 1 > a ∧ less (nth data (j + 1)) (nth data j) = true then
      insertionInner less a j (swap data (j + 1) j)
    else data

/-- Outer loop of `insertionSort_func`, `n` being `b - i`:
`for i := a + 1; i < b; i++`. -/
def insertionOuter {α : Type} [Inhabited α] (less : α → α → Bool) (a : Nat) :
    Nat → Nat → List α → List α
  | 0, _, data => data
  | n + 1, i, data => insertionOuter less a n (i + 1) (insertionInner less a i data)

/-- The function `insertionSort_func`: sorts `data[a:b]` by insertion. -/
def insertionSort_func {α : Type} [Inhabited α] (less : α → α → Bool) (data : List α) (a b : Nat) : List α :=
  insertionOuter less a (b - (a + 1)) (a + 1) data

/-- Loop of `siftDown_func` from the node `root`; the first argument bounds the
number of steps, `hi` suffices as every step moves to a child. -/
def siftDownLoop {α : Type} [Inhabited α] (less : α → α → Bool) (hi first : Nat) :
    Nat → Nat → List α → List α
  | 0, _, data => data
  | n + 1, root, data =>
    let child := 2 * root + 1
    if child ≥ hi then data
    else
      let child1 :=
        if child + 1 < hi ∧ less (nth data (first + child)) (nth data (first + child + 1)) = true then
          child + 1
        else child
      if less (nth data (first + root)) (nth data (first + child1)) = false then data
      else siftDownLoop less hi first n child1 (swap data (first + root) (first + child1))

/-- The function `siftDown_func`: restores the heap property on `data[lo:hi]`,
`first` being the offset of the root of the heap. -/
def siftDown_func {α : Type} [Inhabited α] (less : α → α → Bool) (data : List α) (lo hi first : Nat) :
    List α :=
  siftDownLoop less hi first hi lo data

/-- First loop of `heapSort_func`, `m` being `i + 1`:
`for i := (hi - 1) / 2; i >= 0; i-- { siftDown_func(data, i, hi, first) }`. -/
def heapBuild {α : Type} [Inhabited α] (less : α → α → Bool) (hi first : Nat) : Nat → List α → List α
  | 0, data => data
  | i + 1, data => heapBuild less hi first i (siftDown_func less data i hi first)

/-- Second loop of `heapSort_func`, `m` being `i + 1`:
`for i := hi - 1; i >= 0; i-- { data.Swap(first, first+i); siftDown_func(data, lo, i, first) }`. -/
def heapPop {α : Type} [Inhabited α] (less : α → α → Bool) (first : Nat) : Nat → List α → List α
  | 0, data => data
  | i + 1, data =>
    heapPop less first i (siftDown_func less (swap data first (first + i)) 0 i first)

/-- The function `heapSort_func`: sorts `data[a:b]` with a heap. -/
def heapSort_func {α : Type} [Inhabited α] (less : α → α → Bool) (data : List α) (a b : Nat) : List α :=
  heapPop less a (b - a) (heapBuild less (b - a) a ((b - a - 1) / 2 + 1) data)

/-- Loop `for i <= j && cond(i) { i++ }`, `n` being `j + 1 - i`: the final `i`. -/
def scanUp (cond : Nat → Bool) : Nat → Nat → Nat
  | 0, i => i
  | n + 1, i => if cond i then scanUp cond n (i + 1) else i

/-- Loop `for i <= j && cond(j) { j-- }`, `n` being `j + 1 - i`: the final `j`. -/
def scanDown (cond : Nat → Bool) : Nat → Nat → Nat
  | 0, j => j
  | n + 1, j => if cond j then scanDown cond n (j - 1) else j

/-- The `for` loop of `partition_func`, the pivot being at index `a`; the first
argument is `j + 1 - i`. The value is the slice and the final `j`. -/
def partitionLoop {α : Type} [Inhabited α] (less : α → α → Bool) (a : Nat) :
    Nat → Nat → Nat → List α → List α × Nat
  | 0, _, j, data => (data, j)
  | n + 1, i, j, data =>
    let i1 := scanUp (fun k => less (nth data k) (nth data a)) (j + 1 - i) i
    let j1 := scanDown (fun k => !less (nth data k) (nth data a)) (j + 1 - i1) j
    if i1 > j1 then (data, j1)
    else partitionLoop less a n (i1 + 1) (j1 - 1) (swap data i1 j1)

/-- The function `partition_func`: one quicksort partition of `data[a:b]` around
`data[pivot]`; the value is the slice, the new index of the pivot and whether the
slice was already partitioned. -/
def partition_func {α : Type} [Inhabited α] (less : α → α → Bool) (data : List α) (a b pivot : Nat) :
    List α × Nat × Bool :=
  let data1 := swap data a pivot
  let i := a + 1
  let j := b - 1
  let i1 := scanUp (fun k => less (nth data1 k) (nth data1 a)) (j + 1 - i) i
  let j1 := scanDown (fun k => !less (nth data1 k) (nth data1 a)) (j + 1 - i1) j
  if i1 > j1 then (swap data1 j1 a, j1, true)
  else
    let data2 := swap data1 i1 j1
    let r := partitionLoop less a (j1 - 1 + 1 - (i1 + 1)) (i1 + 1) (j1 - 1) data2
    (swap r.1 r.2 a, r.2, false)

/-- The `for` loop of `partitionEqual_func`, the pivot being at index `a`; the
first argument is `j + 1 - i`. The value is the slice and the final `i`. -/
def partitionEqualLoop {α : Type} [Inhabited α] (less : α → α → Bool) (a : Nat) :
    Nat → Nat → Nat → List α → List α × Nat
  | 0, i, _, data => (data, i)
  | n + 1, i, j, data =>
    let i1 := scanUp (fun k => !less (nth data a) (nth data k)) (j + 1 - i) i
    let j1 := scanDown (fun k => less (nth data a) (nth data k)) (j + 1 - i1) j
    if i1 > j1 then (data, i1)
    else partitionEqualLoop less a n (i1 + 1) (j1 - 1) (swap data i1 j1)

/-- The function `partitionEqual_func`: partitions `data[a:b]` into the elements
equal to `data[pivot]` followed by the elements greater than it. -/
def partitionEqual_func {α : Type} [Inhabited α] (less : α → α → Bool) (data : List α) (a b pivot : Nat) :
    List α × Nat :=
  partitionEqualLoop less a (b - 1 + 1 - (a + 1)) (a + 1) (b - 1) (swap data a pivot)

/-- Loop `for j := i + 1; j < b; j++ { if !data.Less(j, j-1) { break }; data.Swap(j, j-1) }`
of `partialInsertionSort_func`, `n` being `b - j`. -/
def shiftRight {α : Type} [Inhabited α] (less : α → α → Bool) : Nat → Nat → List α → List α
  | 0, _, data => data
  | n + 1, j, data =>
    if less (nth data j) (nth data (j - 1)) = false then data
    else shiftRight less n (j + 1) (swap data j (j - 1))

/-- Outer loop of `partialInsertionSort_func`, `steps` being `maxSteps - j`. The
loop that shifts the smaller element to the left runs down to index 1, as in
the library. -/
def partialInsertionLoop {α : Type} [Inhabited α] (less : α → α → Bool) (a b : Nat) :
    Nat → Nat → List α → List α × Bool
  | 0, _, data => (data, false)
  | steps + 1, i, data =>
    let i1 := scanUp (fun k => !less (nth data k) (nth data (k - 1))) (b - i) i
    if i1 = b then (data, true)
    else if b - a < 50 then (data, false)
    else
      let data1 := swap data i1 (i1 - 1)
      let data2 := if i1 - a ≥ 2 then insertionInner less 0 (i1 - 1) data1 else data1
      let data3 := if b - i1 ≥ 2 then shiftRight less (b - (i1 + 1)) (i1 + 1) data2 else data2
      partialInsertionLoop less a b steps i1 data3

/-- The function `partialInsertionSort_func`: sorts `data[a:b]` partially; the
Boolean tells whether the slice is sorted at the end. -/
def partialInsertionSort_func {α : Type} [Inhabited α] (less : α → α → Bool) (data : List α) (a b : Nat) :
    List α × Bool :=
  partialInsertionLoop less a b 5 (a + 1) data

/-- The method `Next` of the generator `xorshift`, on 64 bits. -/
def xorshiftNext (r : Nat) : Nat :=
  let r1 := r ^^^ (r <<< 13 % 2 ^ 64)
  let r2 := r1 ^^^ (r1 >>> 7)
  r2 ^^^ (r2 <<< 17 % 2 ^ 64)

/-- The function `bits.Len`: the number of bits of `n`. -/
def bitsLen (n : Nat) : Nat := if n = 0 then 0 else Nat.log2 n + 1

/-- The function `nextPowerOfTwo`. -/
def nextPowerOfTwo (length : Nat) : Nat := 2 ^ bitsLen length

/-- Loop of `breakPatterns_func`, `n` being `3 - i`. -/
def breakPatternsLoop {α : Type} [Inhabited α] (a length idx modulus : Nat) :
    Nat → Nat → Nat → List α → List α
  | 0, _, _, data => data
  | n + 1, i, random, data =>
    let random1 := xorshiftNext random
    let other := random1 &&& (modulus - 1)
    let other1 := if other ≥ length then other - length else other
    breakPatternsLoop a length idx modulus n (i + 1) random1 (swap data (idx - 1 + i) (a + other1))

/-- The function `breakPatterns_func`: swaps three elements around the middle of
`data[a:b]` with elements at pseudo-random places. -/
def breakPatterns_func {α : Type} [Inhabited α] (data : List α) (a b : Nat) : List α :=
  let length := b - a
  if length ≥ 8 then
    breakPatternsLoop a length (a + length / 4 * 2 - 1) (nextPowerOfTwo length) 3 0 length data
  else data

/-- The type `sortedHint`. -/
inductive sortedHint where
  | unknownHint
  | increasingHint
  | decreasingHint
deriving DecidableEq, Repr

/-- The function `order2_func`: the two indices in the order of their elements,
and the count of swaps. -/
def order2_func {α : Type} [Inhabited α] (less : α → α → Bool) (data : List α) (a b swaps : Nat) :
    Nat × Nat × Nat :=
  if less (nth data b) (nth data a) then (b, a, swaps + 1) else (a, b, swaps)

/-- The function `median_func`: the index of the median of three elements, and the
count of swaps. -/
def median_func {α : Type} [Inhabited α] (less : α → α → Bool) (data : List α) (a b c swaps : Nat) :
    Nat × Nat :=
  let r1 := order2_func less data a b swaps
  let r2 := order2_func less data r1.2.1 c r1.2.2
  let r3 := order2_func less data r1.1 r2.1 r2.2.2
  (r3.2.1, r3.2.2)

/-- The function `medianAdjacent_func`. -/
def medianAdjacent_func {α : Type} [Inhabited α] (less : α → α → Bool) (data : List α) (a swaps : Nat) :
    Nat × Nat :=
  median_func less data (a - 1) a (a + 1) swaps

/-- The function `choosePivot_func`: an index of `data[a:b]` and a hint. -/
def choosePivot_func {α : Type} [Inhabited α] (less : α → α → Bool) (data : List α) (a b : Nat) :
    Nat × sortedHint :=
  let l := b - a
  let i := a + l / 4 * 1
  let j := a + l / 4 * 2
  let k := a + l / 4 * 3
  let r : Nat × Nat :=
    if l ≥ 8 then
      if l ≥ 50 then
        let ri := medianAdjacent_func less data i 0
        let rj := medianAdjacent_func less data j ri.2
        let rk := medianAdjacent_func less data k rj.2
        median_func less data ri.1 rj.1 rk.1 rk.2
      else median_func less data i j k 0
    else (j, 0)
  if r.2 = 0 then (r.1, .increasingHint)
  else if r.2 = 12 then (r.1, .decreasingHint)
  else (r.1, .unknownHint)

/-- Loop of `reverseRange_func`; the first argument bounds the number of steps. -/
def reverseLoop {α : Type} [Inhabited α] : Nat → Nat → Nat → List α → List α
  | 0, _, _, data => data
  | n + 1, i, j, data => if i < j then reverseLoop n (i + 1) (j - 1) (swap data i j) else data

/-- The function `reverseRange_func`: reverses `data[a:b]`. -/
def reverseRange_func {α : Type} [Inhabited α] (data : List α) (a b : Nat) : List α :=
  reverseLoop (b - a) a (b - 1) data

/-- The loop of `pdqsort_func` with its two local flags; the first argument bounds
the depth of the recursion, and `b - a + 1` suffices as every call and every
turn of the loop is on a shorter range. -/
def pdqsortLoop {α : Type} [Inhabited α] (less : α → α → Bool) :
    Nat → List α → Nat → Nat → Nat → Bool → Bool → List α
  | 0, data, _, _, _, _, _ => data
  | fuel + 1, data, a, b, limit, wasBalanced, wasPartitioned =>
    let length := b - a
    if length ≤ 12 then insertionSort_func less data a b
    else if limit = 0 then heapSort_func less data a b
    else
      let data1 := if wasBalanced then data else breakPatterns_func data a b
      let limit1 := if wasBalanced then limit else limit - 1
      let chosen := choosePivot_func less data1 a b
      let data2 := if chosen.2 = .decreasingHint then reverseRange_func data1 a b else data1
      let pivot := if chosen.2 = .decreasingHint then b - 1 - (chosen.1 - a) else chosen.1
      let hint := if chosen.2 = .decreasingHint then sortedHint.increasingHint else chosen.2
      let tryPartial := wasBalanced && wasPartitioned && decide (hint = .increasingHint)
      let partial1 := partialInsertionSort_func less data2 a b
      if tryPartial && partial1.2 then partial1.1
      else
        let data3 := if tryPartial then partial1.1 else data2
        if a > 0 ∧ less (nth data3 (a - 1)) (nth data3 pivot) = false then
          let r := partitionEqual_func less data3 a b pivot
          pdqsortLoop less fuel r.1 r.2 b limit1 wasBalanced wasPartitioned
        else
          let r := partition_func less data3 a b pivot
          let mid := r.2.1
          let leftLen := mid - a
          let rightLen := b - mid
          let balanceThreshold := length / 8
          if leftLen < rightLen then
            pdqsortLoop less fuel (pdqsortLoop less fuel r.1 a mid limit1 true true) (mid + 1) b
              limit1 (decide (leftLen ≥ balanceThreshold)) r.2.2
          else
            pdqsortLoop less fuel (pdqsortLoop less fuel r.1 (mid + 1) b limit1 true true) a mid
              limit1 (decide (rightLen ≥ balanceThreshold)) r.2.2

/-- The function `pdqsort_func`: sorts `data[a:b]`. -/
def pdqsort_func {α : Type} [Inhabited α] (less : α → α → Bool) (data : List α) (a b limit : Nat) : List α :=
  pdqsortLoop less (b - a + 1) data a b limit true true

/-- Model of `sort.Slice(slice, less)`:
`pdqsort_func(lessSwap{less, swap}, 0, length, bits.Len(uint(length)))`. -/
def sortSlice {α : Type} [Inhabited α] (less : α → α → Bool) (slice : List α) : List α :=
  pdqsort_func less slice 0 slice.length (bitsLen slice.length)

/-! ## Statements on a sort of a range -/

/-- The slice `l'` is the slice `l` with the elements of `l[a:b]` rearranged. -/
def PermOn {α : Type} [Inhabited α] (a b : Nat) (l l' : List α) : Prop :=
  l'.length = l.length ∧
    ∃ σ : Equiv.Perm Nat, (∀ k, k < a ∨ b ≤ k → σ k = k) ∧ ∀ k, nth l' k = nth l (σ k)

/-- The keys of `l[a:b]` are in ascending order. -/
def SortedOn {α : Type} [Inhabited α] (key : α → Int) (l : List α) (a b : Nat) : Prop :=
  ∀ i j, a ≤ i → i < j → j < b → key (nth l i) ≤ key (nth l j)

/-- No element of `l[a:b]` has a key below the key of `l[a-1]`, when `a > 0`. -/
def LowerBound {α : Type} [Inhabited α] (key : α → Int) (l : List α) (a b : Nat) : Prop :=
  0 < a → ∀ k, a ≤ k → k < b → key (nth l (a - 1)) ≤ key (nth l k)

/-- Heap property of `l[first:first+hi]` at the nodes from `lo` on: no child has a
key above the key of its parent. -/
def HeapFrom {α : Type} [Inhabited α] (key : α → Int) (l : List α) (first lo hi : Nat) : Prop :=
  ∀ p c, lo ≤ p → (c = 2 * p + 1 ∨ c = 2 * p + 2) → c < hi →
    key (nth l (first + c)) ≤ key (nth l (first + p))

/-- State of a partition loop on `l[a:b]` whose pivot is at index `a`: the
elements before `i` are of the class `c`, the elements after `j` are not. -/
def PartInv {α : Type} [Inhabited α] (c : α → Bool) (a b i j : Nat) (l : List α) : Prop :=
  a + 1 ≤ i ∧ i ≤ j + 1 ∧ j < b ∧ b ≤ l.length ∧
    (∀ k, a + 1 ≤ k → k < i → c (nth l k) = true) ∧
    (∀ k, j < k → k < b → c (nth l k) = false)

/-! ## The sort step of getCVEs -/

/-- Sort key of a name: the first value returned by
`strconv.Atoi(strings.Replace(strings.Replace(name, "CVE-", "", -1), "-", "", -1))`. -/
def sortKey (intSize : Nat) (name : GoString) : Int :=
  (Atoi intSize (Replace (Replace name (ascii "CVE-") [] ) (ascii "-") [])).1

/-- Comparator passed to `sort.Slice` in `getCVEs`, on the records at the two
indices. -/
def cveLess (intSize : Nat) (reverseSort : Bool) (ci cj : CVE) : Bool :=
  let a := sortKey intSize ci.Name
  let b := sortKey intSize cj.Name
  (!reverseSort && decide (a < b)) || (reverseSort && decide (a > b))

/-- Sort step of `getCVEs`: `sort.Slice(cveList, ...)`. -/
def sortCVEs (intSize : Nat) (reverseSort : Bool) (cveList : List CVE) : List CVE :=
  sortSlice (cveLess intSize reverseSort) cveList

/-! ## Formatting and filtering -/

/-- The colour constants of package `PenBins/shared`, which is not part of the
sources at hand: they are a parameter. -/
structure Shared where
  Red : GoString
  Cyan : GoString
  Yellow : GoString
  Reset : GoString

/-- The method `ToFormattedString`:
`fmt.Sprintf("[ %s%s%s ]\n%s\n%s%s%s\n\n", Red, Name, Reset, Description, Cyan, Link, Reset)`. -/
def CVE.ToFormattedString (sh : Shared) (cve : CVE) : GoString :=
  ascii "[ " ++ sh.Red ++ cve.Name ++ sh.Reset ++ ascii " ]\n" ++ cve.Description ++
    ascii "\n" ++ sh.Cyan ++ cve.Link ++ sh.Reset ++ ascii "\n\n"

/-- The value of `lowercaseWordFilter` in `getFormattedCVEs`. -/
def lowercaseWordFilter (lowercaseFilter : GoString) : GoString :=
  if Index lowercaseFilter (ascii ".") > 0 then lowercaseFilter
  else ascii " " ++ lowercaseFilter ++ ascii " "

/-- The condition of the loop body of `getFormattedCVEs`. -/
def passesFilter (U : UnicodeTables) (filter : GoString) (cve : CVE) : Bool :=
  decide (filter = []) || Contains (ToLower U cve.Name) (ToLower U filter) ||
    Contains (ToLower U cve.Description) (lowercaseWordFilter (ToLower U filter))

/-- The function `getFormattedCVEs`. -/
def getFormattedCVEs (sh : Shared) (U : UnicodeTables) (cveList : List CVE)
    (filter : GoString) : GoString :=
  cveList.foldl
    (fun cveString cve =>
      if passesFilter U filter cve then cveString ++ cve.ToFormattedString sh else cveString)
    []

/-! ## Package encoding/json

`json.MarshalIndent` and `json.Unmarshal` belong to the Go standard library. They
are modelled, from their documented behaviour, for the one type the program
passes to them: a slice of `CVE`, whose three fields are strings tagged `name`,
`description` and `link`. -/

/-- The table `hex` of the encoder: the digit of a value below 16. -/
def hexDigit (n : Nat) : Nat := if n < 10 then 48 + n else 87 + n

/-- The table `htmlSafeSet` of the encoder: the ASCII bytes written as they are,
which is every byte from the space on except the double quote, `&`, `<`, `>` and
the backslash. -/
def htmlSafe (b : Nat) : Bool :=
  decide (0x20 ≤ b ∧ b < 0x80 ∧ b ≠ 0x22 ∧ b ≠ 0x26 ∧ b ≠ 0x3C ∧ b ≠ 0x3E ∧ b ≠ 0x5C)

/-- Escape written by the encoder for an ASCII byte outside `htmlSafeSet`. -/
def escapeByte (b : Nat) : GoString :=
  if b = 0x5C ∨ b = 0x22 then [0x5C, b]
  else if b = 8 then ascii "\\b"
  else if b = 12 then ascii "\\f"
  else if b = 10 then ascii "\\n"
  else if b = 13 then ascii "\\r"
  else if b = 9 then ascii "\\t"
  else ascii "\\u00" ++ [hexDigit (b / 16), hexDigit (b % 16)]

/-- Loop of the encoder over the bytes of a string (`appendString` with HTML
escaping): the text between the two quotes. The first argument bounds the number
of steps; the length of the string suffices. -/
def appendStringLoop : Nat → GoString → GoString
  | _, [] => []
  | 0, _ :: _ => []
  | fuel + 1, b :: rest =>
    if b < 0x80 then
      if htmlSafe b then b :: appendStringLoop fuel rest
      else escapeByte b ++ appendStringLoop fuel rest
    else
      let d := DecodeRune (b :: rest)
      if d.1 = RuneError ∧ d.2 = 1 then ascii "\\ufffd" ++ appendStringLoop fuel rest
      else if d.1 = 0x2028 ∨ d.1 = 0x2029 then
        ascii "\\u202" ++ [hexDigit (d.1 % 16)] ++ appendStringLoop fuel ((b :: rest).drop d.2)
      else (b :: rest).take d.2 ++ appendStringLoop fuel ((b :: rest).drop d.2)

/-- JSON text of a Go string: a quote, the escaped bytes, a quote. -/
def appendString (src : GoString) : GoString :=
  [0x22] ++ appendStringLoop src.length src ++ [0x22]

/-- JSON text of one record at nesting depth one, indented by four spaces per
level as `json.MarshalIndent(v, "", "    ")` does. -/
def marshalCVE (c : CVE) : GoString :=
  ascii "\x7b\n        \"name\": " ++ appendString c.Name ++
  ascii ",\n        \"description\": " ++ appendString c.Description ++
  ascii ",\n        \"link\": " ++ appendString c.Link ++
  ascii "\n    \x7d"

/-- The elements of a non-empty array, each pair separated by a comma, a line
break and the indentation. -/
def marshalElems : List CVE → GoString
  | [] => []
  | [c] => marshalCVE c
  | c :: rest => marshalCVE c ++ ascii ",\n    " ++ marshalElems rest

/-- Model of `json.MarshalIndent(cveList, "", "    ")` for a slice of records; `none`
is the `nil` slice. No error arises for this type. -/
def MarshalIndent : Option (List CVE) → GoString
  | none => ascii "null"
  | some [] => ascii "[]"
  | some (c :: rest) => ascii "[\n    " ++ marshalElems (c :: rest) ++ ascii "\n]"

/-- The function `cveListToJsonBytes`. -/
def cveListToJsonBytes (cveList : Option (List CVE)) : GoString := MarshalIndent cveList

/-- The white space of JSON: space, tab, carriage return, line feed. -/
def isSpace (c : Nat) : Bool := decide (c = 0x20 ∨ c = 9 ∨ c = 13 ∨ c = 10)

/-- Input with its leading white space removed. -/
def skipSpace : GoString → GoString
  | [] => []
  | c :: rest => if isSpace c then skipSpace rest else c :: rest

/-- Value of a hexadecimal digit. -/
def hexVal (c : Nat) : Option Nat :=
  if 48 ≤ c ∧ c ≤ 57 then some (c - 48)
  else if 97 ≤ c ∧ c ≤ 102 then some (c - 97 + 10)
  else if 65 ≤ c ∧ c ≤ 70 then some (c - 65 + 10)
  else none

/-- The helper `getu4` of the decoder: the value of the escape `\uXXXX` at the
start of `s`, `none` (the library returns `-1`) when `s` does not start with one. -/
def getu4 (s : GoString) : Option Nat :=
  match s with
  | 0x5C :: 0x75 :: a :: b :: c :: d :: _ =>
    match hexVal a, hexVal b, hexVal c, hexVal d with
    | some va, some vb, some vc, some vd => some (va * 4096 + vb * 256 + vc * 16 + vd)
    | _, _, _, _ => none
  | _ => none

/-- Decoded rune of a surrogate pair (`utf16.DecodeRune`), `RuneError` when the
two values are not a high and a low surrogate. -/
def utf16DecodeRune (r1 : Nat) (r2 : Option Nat) : Nat :=
  match r2 with
  | some r2 =>
    if 0xD800 ≤ r1 ∧ r1 < 0xDC00 ∧ 0xDC00 ≤ r2 ∧ r2 < 0xE000 then
      (r1 - 0xD800) * 1024 + (r2 - 0xDC00) + 0x10000
    else RuneError
  | none => RuneError

/-- A string literal read by the decoder, from the byte after its opening quote:
the scanner finds the closing quote and rejects control bytes and unknown
escapes, `unquote` resolves the escapes and coerces the text to valid UTF-8.
The value is the decoded string and the input after the closing quote. The
first argument bounds the number of steps; the length of the input suffices. -/
def parseStringLoop : Nat → GoString → Option (GoString × GoString)
  | 0, _ => none
  | _ + 1, [] => none
  | fuel + 1, c :: rest =>
    if c = 0x22 then some ([], rest)
    else if c = 0x5C then
      match rest with
      | [] => none
      | e :: rest1 =>
        if e = 0x22 ∨ e = 0x5C ∨ e = 0x2F then
          (parseStringLoop fuel rest1).map fun r => (e :: r.1, r.2)
        else if e = 0x62 then (parseStringLoop fuel rest1).map fun r => (8 :: r.1, r.2)
        else if e = 0x66 then (parseStringLoop fuel rest1).map fun r => (12 :: r.1, r.2)
        else if e = 0x6E then (parseStringLoop fuel rest1).map fun r => (10 :: r.1, r.2)
        else if e = 0x72 then (parseStringLoop fuel rest1).map fun r => (13 :: r.1, r.2)
        else if e = 0x74 then (parseStringLoop fuel rest1).map fun r => (9 :: r.1, r.2)
        else if e = 0x75 then
          match getu4 (c :: rest) with
          | none => none
          | some rr =>
            let after := rest1.drop 4
            if 0xD800 ≤ rr ∧ rr < 0xE000 then
              let dec := utf16DecodeRune rr (getu4 after)
              if dec ≠ RuneError then
                (parseStringLoop fuel (after.drop 6)).map fun r => (EncodeRune dec ++ r.1, r.2)
              else (parseStringLoop fuel after).map fun r => (EncodeRune RuneError ++ r.1, r.2)
            else (parseStringLoop fuel after).map fun r => (EncodeRune rr ++ r.1, r.2)
        else none
    else if c < 0x20 then none
    else if c < 0x80 then (parseStringLoop fuel rest).map fun r => (c :: r.1, r.2)
    else
      let d := DecodeRune (c :: rest)
      (parseStringLoop fuel ((c :: rest).drop d.2)).map fun r => (EncodeRune d.1 ++ r.1, r.2)

/-- A string literal, from the byte after its opening quote. -/
def parseString (s : GoString) : Option (GoString × GoString) := parseStringLoop s.length s

/-- Input with its leading decimal digits removed. -/
def skipDigits : GoString → GoString
  | [] => []
  | c :: rest => if 48 ≤ c ∧ c ≤ 57 then skipDigits rest else c :: rest

/-- Exponent part of a number, if there is one: `e` or `E`, an optional sign and
at least one digit. -/
def skipExponent (s : GoString) : Option GoString :=
  match s with
  | e :: rest =>
    if e = 0x65 ∨ e = 0x45 then
      let digits := match rest with
        | sign :: rest1 => if sign = 0x2B ∨ sign = 0x2D then rest1 else rest
        | [] => rest
      match digits with
      | d :: rest2 => if 48 ≤ d ∧ d ≤ 57 then some (skipDigits rest2) else none
      | [] => none
    else some s
  | [] => some s

/-- Fraction part of a number, if there is one: a dot and at least one digit;
then the exponent part. -/
def skipFraction (s : GoString) : Option GoString :=
  match s with
  | 0x2E :: d :: rest => if 48 ≤ d ∧ d ≤ 57 then skipExponent (skipDigits rest) else none
  | 0x2E :: [] => none
  | _ => skipExponent s

/-- A JSON number at the start of `s`; the value is the input after it. -/
def skipNumber (s : GoString) : Option GoString :=
  let digits := match s with
    | 0x2D :: rest => rest
    | _ => s
  match digits with
  | d :: rest =>
    if d = 48 then skipFraction rest
    else if 49 ≤ d ∧ d ≤ 57 then skipFraction (skipDigits rest)
    else none
  | [] => none

/-- A literal name (`true`, `false`, `null`) at the start of `s`. -/
def skipLiteral (lit s : GoString) : Option GoString :=
  if lit.isPrefixOf s then some (s.drop lit.length) else none

/-- The limit `maxNestingDepth` of the scanner. -/
def maxNestingDepth : Nat := 10000

mutual
/-- Any JSON value whose content is not stored (the value of an unknown key): it
is only checked; the value is the input after it. `depth` is the number of
arrays and objects open around the value. -/
def skipValue : Nat → Nat → GoString → Option GoString
  | 0, _, _ => none
  | fuel + 1, depth, s =>
    match skipSpace s with
    | [] => none
    | c :: rest =>
      if c = 0x22 then (parseString rest).map Prod.snd
      else if c = 0x5B then
        if depth + 1 > maxNestingDepth then none
        else
          match skipSpace rest with
          | 0x5D :: rest1 => some rest1
          | _ => skipElements fuel (depth + 1) rest
      else if c = 0x7B then
        if depth + 1 > maxNestingDepth then none
        else
          match skipSpace rest with
          | 0x7D :: rest1 => some rest1
          | _ => skipMembers fuel (depth + 1) rest
      else if c = 0x74 then skipLiteral (ascii "true") (c :: rest)
      else if c = 0x66 then skipLiteral (ascii "false") (c :: rest)
      else if c = 0x6E then skipLiteral (ascii "null") (c :: rest)
      else skipNumber (c :: rest)
/-- The elements of a non-empty array, up to its closing bracket. -/
def skipElements : Nat → Nat → GoString → Option GoString
  | 0, _, _ => none
  | fuel + 1, depth, s =>
    match skipValue fuel depth s with
    | none => none
    | some rest =>
      match skipSpace rest with
      | 0x2C :: rest1 => skipElements fuel depth rest1
      | 0x5D :: rest1 => some rest1
      | _ => none
/-- The members of a non-empty object, up to its closing brace. -/
def skipMembers : Nat → Nat → GoString → Option GoString
  | 0, _, _ => none
  | fuel + 1, depth, s =>
    match skipSpace s with
    | 0x22 :: rest =>
      match parseString rest with
      | none => none
      | some (_, rest1) =>
        match skipSpace rest1 with
        | 0x3A :: rest2 =>
          match skipValue fuel depth rest2 with
          | none => none
          | some rest3 =>
            match skipSpace rest3 with
            | 0x2C :: rest4 => skipMembers fuel depth rest4
            | 0x7D :: rest4 => some rest4
            | _ => none
        | _ => none
    | _ => none
end

/-- Loop of `foldName`: an ASCII letter is put in upper case, a rune outside
ASCII is replaced by its folding representative. -/
def foldNameLoop (U : UnicodeTables) : Nat → GoString → GoString
  | _, [] => []
  | 0, _ :: _ => []
  | fuel + 1, c :: rest =>
    if c < 0x80 then (if 97 ≤ c ∧ c ≤ 122 then c - 32 else c) :: foldNameLoop U fuel rest
    else
      let d := DecodeRune (c :: rest)
      EncodeRune (U.foldRune d.1) ++ foldNameLoop U fuel ((c :: rest).drop d.2)

/-- The helper `foldName` of the decoder. -/
def foldName (U : UnicodeTables) (s : GoString) : GoString := foldNameLoop U s.length s

/-- The fields of `CVE` by their JSON names. -/
inductive Field where
  | name
  | description
  | link
deriving DecidableEq, Repr

/-- Field addressed by an object key: the field of exactly this name or else the
first field whose folded name is the folded key. -/
def matchField (U : UnicodeTables) (key : GoString) : Option Field :=
  if key = ascii "name" then some .name
  else if key = ascii "description" then some .description
  else if key = ascii "link" then some .link
  else if foldName U key = foldName U (ascii "name") then some .name
  else if foldName U key = foldName U (ascii "description") then some .description
  else if foldName U key = foldName U (ascii "link") then some .link
  else none

/-- Store of a string in a field. -/
def setField (c : CVE) (f : Field) (v : GoString) : CVE :=
  match f with
  | .name => { c with Name := v }
  | .description => { c with Description := v }
  | .link => { c with Link := v }

/-- The members of a non-empty object decoded into the record `c`, up to the
closing brace. A known key takes a string, or `null` which leaves the field as it
is; any other value for it is a type error. The value of an unknown key is
skipped. `none` is an error (of syntax or of type). -/
def parseMembers (U : UnicodeTables) : Nat → CVE → GoString → Option (CVE × GoString)
  | 0, _, _ => none
  | fuel + 1, c, s =>
    match skipSpace s with
    | 0x22 :: rest =>
      match parseString rest with
      | none => none
      | some (key, rest1) =>
        match skipSpace rest1 with
        | 0x3A :: rest2 =>
          let stored : Option (CVE × GoString) :=
            match matchField U key with
            | none => (skipValue rest2.length 2 rest2).map fun r => (c, r)
            | some f =>
              match skipSpace rest2 with
              | 0x22 :: rest3 => (parseString rest3).map fun r => (setField c f r.1, r.2)
              | 0x6E :: rest3 => (skipLiteral (ascii "null") (0x6E :: rest3)).map fun r => (c, r)
              | _ => none
          match stored with
          | none => none
          | some (c1, rest4) =>
            match skipSpace rest4 with
            | 0x2C :: rest5 => parseMembers U fuel c1 rest5
            | 0x7D :: rest5 => some (c1, rest5)
            | _ => none
        | _ => none
    | _ => none

/-- One element of the array decoded into a record: an object, or `null` which
gives the zero record; any other value is a type error. -/
def parseElement (U : UnicodeTables) (s : GoString) : Option (CVE × GoString) :=
  match skipSpace s with
  | 0x7B :: rest =>
    match skipSpace rest with
    | 0x7D :: rest1 => some (⟨[], [], []⟩, rest1)
    | _ => parseMembers U rest.length ⟨[], [], []⟩ rest
  | 0x6E :: rest => (skipLiteral (ascii "null") (0x6E :: rest)).map fun r => (⟨[], [], []⟩, r)
  | _ => none

/-- The elements of a non-empty array, up to its closing bracket. -/
def parseElements (U : UnicodeTables) : Nat → GoString → Option (List CVE × GoString)
  | 0, _ => none
  | fuel + 1, s =>
    match parseElement U s with
    | none => none
    | some (c, rest) =>
      match skipSpace rest with
      | 0x2C :: rest1 => (parseElements U fuel rest1).map fun r => (c :: r.1, r.2)
      | 0x5D :: rest1 => some ([c], rest1)
      | _ => none

/-- Model of `json.Unmarshal(data, &cveList)` for `var cveList []CVE`: the inner
`none` is the `nil` slice (left by the value `null`), the outer `none` an error:
the input is not one JSON value, or a value in it has not the type of its place. -/
def Unmarshal (U : UnicodeTables) (data : GoString) : Option (Option (List CVE)) :=
  match skipSpace data with
  | 0x5B :: rest =>
    match skipSpace rest with
    | 0x5D :: rest1 => if skipSpace rest1 = [] then some (some []) else none
    | _ =>
      match parseElements U rest.length rest with
      | none => none
      | some (l, rest1) => if skipSpace rest1 = [] then some (some l) else none
  | 0x6E :: rest =>
    match skipLiteral (ascii "null") (0x6E :: rest) with
    | none => none
    | some rest1 => if skipSpace rest1 = [] then some none else none
  | _ => none

/-- The function `jsonBytesToCveList`: an error gives the empty slice `[]CVE{}`. -/
def jsonBytesToCveList (U : UnicodeTables) (jsonBytes : GoString) : Option (List CVE) :=
  match Unmarshal U jsonBytes with
  | none => some []
  | some cveList => cveList

/-! ## The cache and the start of getCVEs

The file system is reduced to the one file the program touches, the file at
`tmpPrevResultsPath`: `none` when there is no such file, its bytes otherwise. -/

/-- The keyword list of `getCVEs` after its first statement: the keywords are
joined by `+` into one keyword unless `splitKeys` is set. -/
def joinedKeywords (splitKeys : Bool) (keywords : List GoString) : List GoString :=
  if !splitKeys then [Join keywords (ascii "+")] else keywords

/-- The value of `filename` in `getCVEs`, from the keyword list at that point. -/
def cacheFilename (keywords : List GoString) : GoString :=
  Replace (Replace (Join keywords (ascii " ")) (ascii "/") (ascii "_")) (ascii " ") (ascii "_")

/-- The value of `tmpPrevResultsPath` in `getCVEs`; `tempDir` is `os.TempDir()` and
`pathSeparator` is `os.PathSeparator`, both given by the platform. -/
def cachePath (tempDir : GoString) (pathSeparator : Nat) (filename : GoString) : GoString :=
  tempDir ++ EncodeRune pathSeparator ++ ascii "tmpPrevCveResults" ++ EncodeRune pathSeparator ++
    filename ++ ascii ".json"

/-- Outcome of `getPreviousResults`: the slice it returns, and the elements of the
caller's keyword slice after the call (the parameter shares its array with the
caller's slice). -/
structure PreviousResults where
  cveList : Option (List CVE)
  callerKeywords : List GoString
deriving DecidableEq, Repr

/-- The function `getPreviousResults`. `file` is the file at `tmpPrevResultsPath`;
`keepPrevious` is the value that the condition
`len(choice) == 0 || strings.ToLower(strings.TrimSpace(choice)) != "y"` takes on
the answer of the operator. A file that exists is opened and read without error.
`none` is the run-time panic of `keywords[0]` on an empty slice. -/
def getPreviousResults (U : UnicodeTables) (file : Option GoString) (keepPrevious : Bool)
    (keywords : List GoString) : Option PreviousResults :=
  -- `keywords = []string{strings.Join(keywords[:], "_")}` gives the parameter a new array
  let reassigned := decide (keywords.length > 1)
  let localKeywords := if reassigned then [Join keywords (ascii "_")] else keywords
  match localKeywords with
  | [] => none
  | k0 :: others =>
    let sanitized := Replace (Replace k0 (ascii "/") (ascii "_")) (ascii "\\") (ascii "_")
    -- `keywords[0] = ...` writes into the array of the caller unless it was replaced
    let callerKeywords := if reassigned then keywords else sanitized :: others
    let cveList : Option (List CVE) :=
      match file with
      | some data => if keepPrevious then jsonBytesToCveList U data else some []
      | none => some []
    some { cveList := cveList, callerKeywords := callerKeywords }

/-- Length of a slice of records, `nil` included. -/
def sliceLen (cveList : Option (List CVE)) : Nat := (cveList.getD []).length

/-- The start of `getCVEs`, up to the loop that launches one request per keyword:
the keywords that loop ranges over, none when the cached records are used.
`none` is a run-time panic. -/
def fetchKeywords (U : UnicodeTables) (file : Option GoString) (keepPrevious : Bool)
    (splitKeys : Bool) (keywords : List GoString) (force : Bool) : Option (List GoString) :=
  let keywords1 := joinedKeywords splitKeys keywords
  if !force then
    match getPreviousResults U file keepPrevious keywords1 with
    | none => none
    | some prev => if sliceLen prev.cveList = 0 then some prev.callerKeywords else some []
  else some keywords1

/-- The URL requested for a keyword. -/
def requestURL (key : GoString) : GoString :=
  ascii "https://cve.mitre.org/cgi-bin/cvekey.cgi?keyword=" ++ key

/-- The function `saveResults` when the directory can be made and the file opened
and written: the file at `tmpPrevResultsPath` after the call. The file is opened
with `os.O_RDWR|os.O_CREATE`, so that a missing file is created empty and an
existing file keeps its bytes; the data is written from offset 0. -/
def saveResults (file : Option GoString) (cveList : Option (List CVE)) : Option GoString :=
  let opened := file.getD []
  let data := cveListToJsonBytes cveList
  some (data ++ opened.drop data.length)

/-! ## Concrete inputs used by the witnesses -/

/-- Two batches that both hold a record named `CVE-2020-0001`. -/
def sameNameBatches : List (List CVE) :=
  [[⟨ascii "CVE-2020-0001", ascii "from keyword a", ascii "/a"⟩],
   [⟨ascii "CVE-2020-0001", ascii "from keyword b", ascii "/b"⟩]]


/-- Rows of the `log4j` scenario. -/
def log4jRows : List CVE :=
  [⟨ascii "CVE-2021-44228", ascii "desc A", ascii "link A"⟩,
   ⟨ascii "CVE-2021-45046", ascii "desc B", ascii "link B"⟩]

/-- Sample colour constants (ANSI escape sequences). -/
def sampleShared : Shared :=
  { Red := 27 :: ascii "[31m", Cyan := 27 :: ascii "[36m", Yellow := 27 :: ascii "[33m",
    Reset := 27 :: ascii "[0m" }

/-- Sample tables: no rune above ASCII has a case variant. -/
def caselessTables : UnicodeTables := { toLower := id, foldRune := id }

/-- Record whose description begins with, ends with and consists of one word. -/
def log4jOnly : CVE := ⟨ascii "CVE-2021-44228", ascii "log4j", ascii "/cve/44228"⟩

/-- Record whose description holds `.net` after a letter. -/
def aspNet : CVE := ⟨ascii "CVE-2020-0001", ascii "asp.net", ascii "/cve/0001"⟩

/-- Record whose description holds the word `log4j` between two spaces. -/
def log4jInside : CVE := ⟨ascii "CVE-2021-45046", ascii "Apache Log4j core", ascii "/cve/45046"⟩

/-- Keyword `a/b`. -/
def slashKeyword : GoString := [97, 0x2F, 98]

/-- Keyword `a\b`. -/
def backslashKeyword : GoString := [97, 0x5C, 98]

/-- Record whose name is the single byte `0xFF`, which is not valid UTF-8. -/
def invalidNameRecord : CVE := ⟨[0xFF], ascii "desc", ascii "/link"⟩

/-- Records with an accented letter (two bytes), characters the encoder escapes,
and an empty field. -/
def accentRecords : List CVE :=
  [⟨ascii "CVE-2021-44228", [0x63, 0x61, 0x66, 0xC3, 0xA9, 0x20, 0x3C, 0x62, 0x3E, 0x0A, 0x22],
      ascii "/cve?a=1&b=2"⟩,
   ⟨ascii "CVE-2021-45046", [], ascii "/cve"⟩]

/-- Thirteen records: record `i` is named `CVE-2020-000k` with `k = i mod 5` and has
the description `d` followed by the two digits of `i`. -/
def thirteenRows : List CVE :=
  (List.range 13).map fun i =>
    ⟨ascii "CVE-2020-000" ++ [48 + i % 5], ascii "d" ++ [48 + i / 10, 48 + i % 10], ascii "/cve"⟩

/-! ## Decoding and encoding of runes -/

theorem DecodeRune_cases (p : GoString) : Decoded p (DecodeRune p) := by
  rcases p with _ | ⟨b0, rest⟩
  · exact .empty rfl
  by_cases h0 : b0 < 0x80
  · simp only [DecodeRune, h0, if_true]; exact .one b0 rest rfl h0
  by_cases h1 : b0 < 0xC2 ∨ 0xF4 < b0
  · simp only [DecodeRune, h0, h1, if_true, if_false]; exact .bad b0 rest rfl (by omega)
  have hbad : ∀ r, Decoded (b0 :: r) (RuneError, 1) := fun r => .bad b0 r rfl (by omega)
  by_cases h2 : b0 < 0xE0
  · have e1 : ¬ b0 = 0xE0 := by omega
    have e2 : ¬ b0 = 0xF0 := by omega
    have e3 : ¬ b0 = 0xED := by omega
    have e4 : ¬ b0 = 0xF4 := by omega
    rcases rest with _ | ⟨b1, rest1⟩
    · simp [DecodeRune, h0, h1, h2]; exact hbad _
    · simp only [DecodeRune, h0, h1, h2, e1, e2, e3, e4, if_true, if_false, List.length_cons]
      split_ifs <;> first | exact hbad _ | exact .two b0 b1 rest1 rfl (by omega) h2 (by omega) (by omega) | omega
  by_cases h3 : b0 < 0xF0
  · have e2 : ¬ b0 = 0xF0 := by omega
    have e4 : ¬ b0 = 0xF4 := by omega
    rcases rest with _ | ⟨b1, _ | ⟨b2, rest2⟩⟩
    · simp [DecodeRune, h0, h1, h2, h3]; exact hbad _
    · simp only [DecodeRune, h0, h1, h2, h3, e2, e4, if_true, if_false, List.length_cons,
        List.length_nil]
      split_ifs <;> first | exact hbad _ | omega
    · have hlen : ¬ (rest2.length + 1 + 1 + 1 < 3) := by omega
      have hsz2 : ¬ (3 ≤ 2) := by omega
      have hsz3 : (3 ≤ 3) := by omega
      simp only [DecodeRune, h0, h1, h2, h3, e2, e4, if_true, if_false, List.length_cons,
        hlen, hsz2, hsz3]
      have key : ∀ lo hi : Nat, (b0 = 0xE0 → 0xA0 ≤ lo) → (b0 = 0xED → hi ≤ 0x9F) →
          0x80 ≤ lo → hi ≤ 0xBF →
          Decoded (b0 :: b1 :: b2 :: rest2)
            (if b1 < lo ∨ hi < b1 then (RuneError, 1)
              else if b2 < 0x80 ∨ 0xBF < b2 then (RuneError, 1)
              else (b0 % 16 * 4096 + b1 % 64 * 64 + b2 % 64, 3)) := by
        intro lo hi hlo hhi hlo2 hhi2
        split_ifs <;> first
          | exact hbad _
          | exact .three b0 b1 b2 rest2 rfl (by omega) (by omega) (by omega) (by omega)
              (by intro e; have := hlo e; omega) (by intro e; have := hhi e; omega)
              (by omega) (by omega)
      apply key
      · intro e; simp [e]
      · intro e; simp [e]
      · split_ifs <;> omega
      · split_ifs <;> omega
  · have e1 : ¬ b0 = 0xE0 := by omega
    have e3 : ¬ b0 = 0xED := by omega
    rcases rest with _ | ⟨b1, _ | ⟨b2, _ | ⟨b3, rest3⟩⟩⟩
    · simp [DecodeRune, h0, h1, h2, h3]; exact hbad _
    · simp only [DecodeRune, h0, h1, h2, h3, e1, e3, if_true, if_false, List.length_cons,
        List.length_nil]
      split_ifs <;> first | exact hbad _ | omega
    · simp only [DecodeRune, h0, h1, h2, h3, e1, e3, if_true, if_false, List.length_cons,
        List.length_nil]
      split_ifs <;> first | exact hbad _ | omega
    · have hlen : ¬ (rest3.length + 1 + 1 + 1 + 1 < 4) := by omega
      have hsz2 : ¬ (4 ≤ 2) := by omega
      have hsz3 : ¬ (4 ≤ 3) := by omega
      simp only [DecodeRune, h0, h1, h2, h3, e1, e3, if_true, if_false, List.length_cons,
        hlen, hsz2, hsz3]
      have key : ∀ lo hi : Nat, (b0 = 0xF0 → 0x90 ≤ lo) → (b0 = 0xF4 → hi ≤ 0x8F) →
          0x80 ≤ lo → hi ≤ 0xBF →
          Decoded (b0 :: b1 :: b2 :: b3 :: rest3)
            (if b1 < lo ∨ hi < b1 then (RuneError, 1)
              else if b2 < 0x80 ∨ 0xBF < b2 then (RuneError, 1)
              else if b3 < 0x80 ∨ 0xBF < b3 then (RuneError, 1)
              else (b0 % 8 * 262144 + b1 % 64 * 4096 + b2 % 64 * 64 + b3 % 64, 4)) := by
        intro lo hi hlo hhi hlo2 hhi2
        split_ifs <;> first
          | exact hbad _
          | exact .four b0 b1 b2 b3 rest3 rfl (by omega) (by omega) (by omega) (by omega)
              (by intro e; have := hlo e; omega) (by intro e; have := hhi e; omega)
              (by omega) (by omega) (by omega) (by omega)
      apply key
      · intro e; simp [e]
      · intro e; simp [e]
      · split_ifs <;> omega
      · split_ifs <;> omega

theorem DecodeRune_fst_ascii (p : GoString) (h : (DecodeRune p).1 < 0x80) :
    ∃ rest, p = (DecodeRune p).1 :: rest ∧ (DecodeRune p).2 = 1 := by
  have hc := DecodeRune_cases p
  generalize DecodeRune p = d at h hc
  cases hc with
  | empty _ => simp [RuneError] at h
  | one b rest hp hb => exact ⟨rest, hp, rfl⟩
  | bad b rest hp hb => simp [RuneError] at h
  | two b0 b1 rest hp _ _ _ _ => simp only at h; omega
  | three b0 b1 b2 rest hp _ _ _ _ _ _ _ _ => simp only at h; omega
  | four b0 b1 b2 b3 rest hp _ _ _ _ _ _ _ _ _ _ => simp only at h; omega

theorem DecodeRune_snd_le (p : GoString) : (DecodeRune p).2 ≤ p.length := by
  have hc := DecodeRune_cases p
  generalize DecodeRune p = d at hc
  cases hc <;> simp_all

theorem DecodeRune_snd_pos (b : Nat) (rest : GoString) : 1 ≤ (DecodeRune (b :: rest)).2 := by
  have hc := DecodeRune_cases (b :: rest)
  generalize DecodeRune (b :: rest) = d at hc
  cases hc <;> simp_all

theorem mem_EncodeRune_ascii (x r : Nat) (hx : x < 0x80) (h : x ∈ EncodeRune r) : r = x := by
  unfold EncodeRune at h
  split_ifs at h <;> simp at h <;> omega

/-! ## Round trip through the JSON text -/



theorem DecodeRune_two (b0 b1 : Nat) (t : GoString) (h0 : 0xC2 ≤ b0) (h1 : b0 < 0xE0)
    (h2 : 0x80 ≤ b1) (h3 : b1 ≤ 0xBF) :
    DecodeRune (b0 :: b1 :: t) = (b0 % 32 * 64 + b1 % 64, 2) := by
  have e0 : ¬ b0 < 0x80 := by omega
  have e1 : ¬ (b0 < 0xC2 ∨ 0xF4 < b0) := by omega
  have e2 : ¬ b0 = 0xE0 := by omega
  have e3 : ¬ b0 = 0xF0 := by omega
  have e4 : ¬ b0 = 0xED := by omega
  have e5 : ¬ b0 = 0xF4 := by omega
  have e6 : ¬ (t.length + 1 + 1 < 2) := by omega
  have e7 : ¬ (b1 < 0x80 ∨ 0xBF < b1) := by omega
  simp only [DecodeRune, e0, e1, h1, e2, e3, e4, e5, e6, e7, if_true, if_false, List.length_cons,
    le_refl]

theorem DecodeRune_three (b0 b1 b2 : Nat) (t : GoString) (h0 : 0xE0 ≤ b0) (h1 : b0 < 0xF0)
    (h2 : 0x80 ≤ b1) (h3 : b1 ≤ 0xBF) (h4 : b0 = 0xE0 → 0xA0 ≤ b1) (h5 : b0 = 0xED → b1 ≤ 0x9F)
    (h6 : 0x80 ≤ b2) (h7 : b2 ≤ 0xBF) :
    DecodeRune (b0 :: b1 :: b2 :: t) = (b0 % 16 * 4096 + b1 % 64 * 64 + b2 % 64, 3) := by
  have e0 : ¬ b0 < 0x80 := by omega
  have e1 : ¬ (b0 < 0xC2 ∨ 0xF4 < b0) := by omega
  have e2 : ¬ b0 < 0xE0 := by omega
  have e3 : ¬ b0 = 0xF0 := by omega
  have e5 : ¬ b0 = 0xF4 := by omega
  have e6 : ¬ (t.length + 1 + 1 + 1 < 3) := by omega
  have e7 : ¬ (b2 < 0x80 ∨ 0xBF < b2) := by omega
  have e8 : ¬ (3 ≤ 2) := by omega
  simp only [DecodeRune, e0, e1, h1, e2, e3, e5, e6, e7, e8, if_true, if_false,
    List.length_cons, le_refl]
  have e9 : ¬ (b1 < (if b0 = 0xE0 then 0xA0 else 0x80) ∨ (if b0 = 0xED then 0x9F else 0xBF) < b1) := by
    split_ifs <;> omega
  simp only [e9, if_false]

theorem DecodeRune_four (b0 b1 b2 b3 : Nat) (t : GoString) (h0 : 0xF0 ≤ b0) (h1 : b0 ≤ 0xF4)
    (h2 : 0x80 ≤ b1) (h3 : b1 ≤ 0xBF) (h4 : b0 = 0xF0 → 0x90 ≤ b1) (h5 : b0 = 0xF4 → b1 ≤ 0x8F)
    (h6 : 0x80 ≤ b2) (h7 : b2 ≤ 0xBF) (h8 : 0x80 ≤ b3) (h9 : b3 ≤ 0xBF) :
    DecodeRune (b0 :: b1 :: b2 :: b3 :: t) =
      (b0 % 8 * 262144 + b1 % 64 * 4096 + b2 % 64 * 64 + b3 % 64, 4) := by
  have e0 : ¬ b0 < 0x80 := by omega
  have e1 : ¬ (b0 < 0xC2 ∨ 0xF4 < b0) := by omega
  have e2 : ¬ b0 < 0xE0 := by omega
  have e2' : ¬ b0 < 0xF0 := by omega
  have e3 : ¬ b0 = 0xE0 := by omega
  have e5 : ¬ b0 = 0xED := by omega
  have e6 : ¬ (t.length + 1 + 1 + 1 + 1 < 4) := by omega
  have e7 : ¬ (b2 < 0x80 ∨ 0xBF < b2) := by omega
  have e7' : ¬ (b3 < 0x80 ∨ 0xBF < b3) := by omega
  have e8 : ¬ (4 ≤ 2) := by omega
  have e8' : ¬ (4 ≤ 3) := by omega
  simp only [DecodeRune, e0, e1, e2, e2', e3, e5, e6, e7, e7', e8, e8', if_true, if_false,
    List.length_cons]
  have e9 : ¬ (b1 < (if b0 = 0xF0 then 0x90 else 0x80) ∨ (if b0 = 0xF4 then 0x8F else 0xBF) < b1) := by
    split_ifs <;> omega
  simp only [e9, if_false]

/-- A multi-byte rune decoded without error: the bytes read are the encoding of
the rune, and the rune is read from these bytes whatever follows them. -/
theorem DecodeRune_multibyte (b : Nat) (rest : GoString) (hb : 0x80 ≤ b)
    (hv : ¬ ((DecodeRune (b :: rest)).1 = RuneError ∧ (DecodeRune (b :: rest)).2 = 1)) :
    ∃ chunk tail, b :: rest = chunk ++ tail ∧ chunk.length = (DecodeRune (b :: rest)).2 ∧
      (b :: rest).take (DecodeRune (b :: rest)).2 = chunk ∧
      (b :: rest).drop (DecodeRune (b :: rest)).2 = tail ∧
      EncodeRune (DecodeRune (b :: rest)).1 = chunk ∧
      0x80 ≤ (DecodeRune (b :: rest)).1 ∧
      ¬ (0xD800 ≤ (DecodeRune (b :: rest)).1 ∧ (DecodeRune (b :: rest)).1 < 0xE000) ∧
      (∀ t, DecodeRune (chunk ++ t) = DecodeRune (b :: rest)) := by
  have hc := DecodeRune_cases (b :: rest)
  generalize hd : DecodeRune (b :: rest) = d at hc hv
  cases hc with
  | empty hp => simp at hp
  | one b' rest' hp hb' => simp only [List.cons.injEq] at hp; omega
  | bad b' rest' hp hb' => simp at hv
  | two b0 b1 t hp h0 h1 h2 h3 =>
    refine ⟨[b0, b1], t, by simpa using hp, rfl, by simp [hp], by simp [hp], ?_, ?_, ?_, ?_⟩
    · simp only [EncodeRune]
      split_ifs <;> first | omega | (simp only [List.cons.injEq, and_true]; omega)
    · simp only; omega
    · simp only; omega
    · intro t'
      exact DecodeRune_two b0 b1 t' h0 h1 h2 h3
  | three b0 b1 b2 t hp h0 h1 h2 h3 h4 h5 h6 h7 =>
    refine ⟨[b0, b1, b2], t, by simpa using hp, rfl, by simp [hp], by simp [hp], ?_, ?_, ?_, ?_⟩
    · simp only [EncodeRune]
      split_ifs <;> first | omega | (simp only [List.cons.injEq, and_true]; omega)
    · simp only; omega
    · simp only; omega
    · intro t'
      exact DecodeRune_three b0 b1 b2 t' h0 h1 h2 h3 h4 h5 h6 h7
  | four b0 b1 b2 b3 t hp h0 h1 h2 h3 h4 h5 h6 h7 h8 h9 =>
    refine ⟨[b0, b1, b2, b3], t, by simpa using hp, rfl, by simp [hp], by simp [hp], ?_, ?_, ?_, ?_⟩
    · simp only [EncodeRune]
      split_ifs <;> first | omega | (simp only [List.cons.injEq, and_true]; omega)
    · simp only; omega
    · simp only; omega
    · intro t'
      exact DecodeRune_four b0 b1 b2 b3 t' h0 h1 h2 h3 h4 h5 h6 h7 h8 h9

theorem hexVal_hexDigit (n : Nat) (h : n < 16) : hexVal (hexDigit n) = some n := by
  unfold hexVal hexDigit
  split_ifs <;> first | omega | (simp only [Option.some.injEq]; omega)

theorem parseStringLoop_quote (fuel : Nat) (rest : GoString) :
    parseStringLoop (fuel + 1) (0x22 :: rest) = some ([], rest) := by
  simp [parseStringLoop]

theorem parseStringLoop_plain (fuel c : Nat) (l : GoString) (h1 : c ≠ 0x22) (h2 : c ≠ 0x5C)
    (h3 : 0x20 ≤ c) (h4 : c < 0x80) :
    parseStringLoop (fuel + 1) (c :: l) =
      (parseStringLoop fuel l).map fun r => (c :: r.1, r.2) := by
  have h5 : ¬ c < 0x20 := by omega
  simp only [parseStringLoop, h1, h2, h4, h5, if_true, if_false]

theorem parseStringLoop_multibyte (fuel c : Nat) (l : GoString) (h : 0x80 ≤ c) :
    parseStringLoop (fuel + 1) (c :: l) =
      (parseStringLoop fuel ((c :: l).drop (DecodeRune (c :: l)).2)).map
        fun r => (EncodeRune (DecodeRune (c :: l)).1 ++ r.1, r.2) := by
  have h1 : ¬ c = 0x22 := by omega
  have h2 : ¬ c = 0x5C := by omega
  have h4 : ¬ c < 0x80 := by omega
  have h5 : ¬ c < 0x20 := by omega
  simp only [parseStringLoop, h1, h2, h4, h5, if_true, if_false]

/-- The escape of two bytes written for `b` is read back as `b`. -/
theorem parseStringLoop_escapeByte (fuel b : Nat) (l : GoString) (hb : b < 0x80)
    (hs : htmlSafe b = false) :
    parseStringLoop (fuel + 1) (escapeByte b ++ l) =
      (parseStringLoop fuel l).map fun r => (b :: r.1, r.2) := by
  unfold escapeByte
  split_ifs with h1 h2 h3 h4 h5 h6
  · rcases h1 with h1 | h1 <;> subst h1 <;> simp [parseStringLoop]
  · subst h2; simp [parseStringLoop, ascii]
  · subst h3; simp [parseStringLoop, ascii]
  · subst h4; simp [parseStringLoop, ascii]
  · subst h5; simp [parseStringLoop, ascii]
  · subst h6; simp [parseStringLoop, ascii]
  · have hx := hexVal_hexDigit (b / 16) (by omega)
    have hy := hexVal_hexDigit (b % 16) (by omega)
    have h0 : hexVal 48 = some 0 := by decide
    have hval : b / 16 * 16 + b % 16 = b := by omega
    have hns : ¬ (0xD800 ≤ b ∧ b < 0xE000) := by omega
    have henc : EncodeRune b = [b] := by simp [EncodeRune]; omega
    simp [parseStringLoop, ascii, getu4, hx, hy, h0, hval, hns, henc]

theorem escapeByte_length_pos (b : Nat) : 0 < (escapeByte b).length := by
  unfold escapeByte
  split_ifs <;> simp [ascii]

/-- The escape of the rune U+2028 or U+2029 is read back as the rune. -/
theorem parseStringLoop_lineSep (fuel r : Nat) (l : GoString) (hr : r = 0x2028 ∨ r = 0x2029) :
    parseStringLoop (fuel + 1) (ascii "\\u202" ++ [hexDigit (r % 16)] ++ l) =
      (parseStringLoop fuel l).map fun p => (EncodeRune r ++ p.1, p.2) := by
  rcases hr with hr | hr <;> subst hr <;>
    simp [parseStringLoop, ascii, getu4, hexVal, hexDigit]

/-- A valid string is read back from its JSON text. -/
theorem parseStringLoop_appendStringLoop (fuelV : Nat) :
    ∀ (s : GoString), validStringLoop fuelV s = true →
    ∀ (fuelE : Nat), s.length ≤ fuelE →
    ∀ (fuelD : Nat) (rest : GoString), (appendStringLoop fuelE s).length < fuelD →
      parseStringLoop fuelD (appendStringLoop fuelE s ++ 0x22 :: rest) = some (s, rest) := by
  induction fuelV with
  | zero =>
    intro s hv fuelE _ fuelD rest hD
    rcases s with _ | ⟨b, t⟩
    · obtain ⟨fD, rfl⟩ : ∃ fD, fuelD = fD + 1 := ⟨fuelD - 1, by omega⟩
      cases fuelE <;> simp [appendStringLoop, parseStringLoop_quote]
    · simp [validStringLoop] at hv
  | succ fuelV ih =>
    intro s hv fuelE hE fuelD rest hD
    rcases s with _ | ⟨b, t⟩
    · obtain ⟨fD, rfl⟩ : ∃ fD, fuelD = fD + 1 := ⟨fuelD - 1, by omega⟩
      cases fuelE <;> simp [appendStringLoop, parseStringLoop_quote]
    · obtain ⟨fE, rfl⟩ : ∃ fE, fuelE = fE + 1 := ⟨fuelE - 1, by simp at hE; omega⟩
      obtain ⟨fD, rfl⟩ : ∃ fD, fuelD = fD + 1 := ⟨fuelD - 1, by omega⟩
      have hEt : t.length ≤ fE := by simpa using hE
      simp only [validStringLoop, Bool.if_false_left, Bool.and_eq_true, Bool.not_eq_true',
        decide_eq_false_iff_not] at hv
      obtain ⟨hvalid, hvrest⟩ := hv
      by_cases hb : b < 0x80
      · have hd : DecodeRune (b :: t) = (b, 1) := by simp [DecodeRune, hb]
        rw [hd] at hvrest
        simp only [List.drop_succ_cons, List.drop_zero] at hvrest
        by_cases hs : htmlSafe b = true
        · have hs' := hs
          simp only [htmlSafe, decide_eq_true_eq] at hs'
          simp only [appendStringLoop, hb, hs, if_true, List.cons_append]
          simp only [appendStringLoop, hb, hs, if_true, List.length_cons] at hD
          rw [parseStringLoop_plain fD b _ (by omega) (by omega) (by omega) hb,
            ih t hvrest fE hEt fD rest (by omega)]
          rfl
        · have hs' : htmlSafe b = false := by simpa using hs
          simp only [appendStringLoop, hb, hs', if_true, Bool.false_eq_true, if_false,
            List.append_assoc]
          simp only [appendStringLoop, hb, hs', if_true, Bool.false_eq_true, if_false,
            List.length_append] at hD
          have hpos := escapeByte_length_pos b
          rw [parseStringLoop_escapeByte fD b _ hb hs',
            ih t hvrest fE hEt fD rest (by omega)]
          rfl
      · have hb' : 0x80 ≤ b := by omega
        obtain ⟨chunk, tail, hsplit, hlen, htake, hdrop, henc, hge, hsur, hdec⟩ :=
          DecodeRune_multibyte b t hb' hvalid
        have hvalid' : ¬ ((DecodeRune (b :: t)).1 = RuneError ∧ (DecodeRune (b :: t)).2 = 1) :=
          hvalid
        rw [hdrop] at hvrest
        have hpos := DecodeRune_snd_pos b t
        have htl : tail.length ≤ fE := by
          have := congrArg List.length hsplit
          simp only [List.length_cons, List.length_append] at this
          omega
        simp only [appendStringLoop, hb, hvalid', if_false, htake, hdrop]
        simp only [appendStringLoop, hb, hvalid', if_false, htake, hdrop] at hD
        by_cases hls : (DecodeRune (b :: t)).1 = 0x2028 ∨ (DecodeRune (b :: t)).1 = 0x2029
        · simp only [hls, if_true, List.append_assoc] at hD ⊢
          simp only [List.length_append, List.length_cons, List.length_nil] at hD
          rw [← List.append_assoc, parseStringLoop_lineSep fD _ _ hls,
            ih tail hvrest fE htl fD rest (by omega), henc, hsplit]
          rfl
        · simp only [hls, if_false, List.append_assoc] at hD ⊢
          simp only [List.length_append] at hD
          obtain ⟨c0, chunk', rfl⟩ : ∃ c0 chunk', chunk = c0 :: chunk' := by
            rcases chunk with _ | ⟨c0, chunk'⟩
            · simp at hlen; omega
            · exact ⟨c0, chunk', rfl⟩
          have hc0 : c0 = b := by
            have := congrArg List.head? hsplit
            simpa using this.symm
          subst hc0
          rw [List.cons_append, parseStringLoop_multibyte fD c0 _ hb']
          have hd2 := hdec (appendStringLoop fE tail ++ 0x22 :: rest)
          rw [List.cons_append] at hd2
          rw [hd2, ← List.cons_append, ← hlen, List.drop_left,
            ih tail hvrest fE htl fD rest (by simp at hD; omega), henc, hsplit]
          rfl

theorem parseString_appendStringLoop (s rest : GoString) (hv : ValidString s = true) :
    parseString (appendStringLoop s.length s ++ 0x22 :: rest) = some (s, rest) := by
  unfold parseString
  apply parseStringLoop_appendStringLoop s.length s hv s.length (le_refl _)
  simp

theorem skipSpace_of_not_space (c : Nat) (l : GoString) (h : isSpace c = false) :
    skipSpace (c :: l) = c :: l := by
  simp [skipSpace, h]

theorem skipSpace_indent8 (l : GoString) : skipSpace (ascii "\n        " ++ l) = skipSpace l := by
  simp [ascii, skipSpace, isSpace]

theorem skipSpace_indent4 (l : GoString) : skipSpace (ascii "\n    " ++ l) = skipSpace l := by
  simp [ascii, skipSpace, isSpace]

/-- One member of the text of a record, read by `parseMembers`. -/
theorem parseMembers_member (U : UnicodeTables) (fuel : Nat) (c : CVE) (key : GoString)
    (f : Field) (v tail : GoString)
    (hkey : ∀ X, parseString (key ++ 0x22 :: X) = some (key, X))
    (hm : matchField U key = some f) (hv : ValidString v = true) :
    parseMembers U (fuel + 1) c
        (ascii "\n        " ++ (0x22 :: (key ++ 0x22 :: 0x3A :: 0x20 :: (appendString v ++ tail)))) =
      match skipSpace tail with
      | 0x2C :: rest5 => parseMembers U fuel (setField c f v) rest5
      | 0x7D :: rest5 => some (setField c f v, rest5)
      | _ => none := by
  have h1 : skipSpace (0x3A :: 0x20 :: (appendString v ++ tail)) =
      0x3A :: 0x20 :: (appendString v ++ tail) := skipSpace_of_not_space _ _ (by decide)
  have h2 : skipSpace (0x20 :: (appendString v ++ tail)) =
      0x22 :: (appendStringLoop v.length v ++ 0x22 :: tail) := by
    simp [skipSpace, isSpace, appendString]
  have h3 : skipSpace (0x22 :: (key ++ 0x22 :: 0x3A :: 0x20 :: (appendString v ++ tail))) =
      0x22 :: (key ++ 0x22 :: 0x3A :: 0x20 :: (appendString v ++ tail)) :=
    skipSpace_of_not_space _ _ (by decide)
  rw [parseMembers, skipSpace_indent8, h3]
  simp only [hkey, h1, hm, h2, parseString_appendStringLoop v tail hv, Option.map_some']

theorem parseString_key (key : GoString) (hv : ValidString key = true)
    (hplain : appendStringLoop key.length key = key) (X : GoString) :
    parseString (key ++ 0x22 :: X) = some (key, X) := by
  have := parseString_appendStringLoop key X hv
  rwa [hplain] at this

theorem marshalCVE_append (c : CVE) (rest : GoString) :
    marshalCVE c ++ rest =
      0x7B :: (ascii "\n        " ++ (0x22 :: (ascii "name" ++ 0x22 :: 0x3A :: 0x20 ::
        (appendString c.Name ++ (0x2C :: (ascii "\n        " ++ (0x22 :: (ascii "description" ++
          0x22 :: 0x3A :: 0x20 :: (appendString c.Description ++ (0x2C :: (ascii "\n        " ++
            (0x22 :: (ascii "link" ++ 0x22 :: 0x3A :: 0x20 :: (appendString c.Link ++
              (ascii "\n    " ++ 0x7D :: rest))))))))))))))) := by
  simp [marshalCVE, ascii, List.append_assoc]

theorem parseElement_marshalCVE (U : UnicodeTables) (c : CVE) (rest : GoString)
    (hn : ValidString c.Name = true) (hd : ValidString c.Description = true)
    (hl : ValidString c.Link = true) :
    parseElement U (ascii "\n    " ++ (marshalCVE c ++ rest)) = some (c, rest) := by
  rw [parseElement, skipSpace_indent4, marshalCVE_append,
    skipSpace_of_not_space 0x7B _ (by decide)]
  simp only []
  rw [skipSpace_indent8, skipSpace_of_not_space 0x22 _ (by decide)]
  simp only []
  generalize hfuel : List.length _ = fuel
  obtain ⟨n, rfl⟩ : ∃ n, fuel = n + 3 := by
    refine ⟨fuel - 3, ?_⟩
    rw [← hfuel]
    simp [ascii]
  rw [parseMembers_member U _ _ (ascii "name") .name c.Name _
      (parseString_key _ (by decide) (by decide)) rfl hn,
    skipSpace_of_not_space 0x2C _ (by decide)]
  simp only []
  rw [parseMembers_member U _ _ (ascii "description") .description c.Description _
      (parseString_key _ (by decide) (by decide)) rfl hd,
    skipSpace_of_not_space 0x2C _ (by decide)]
  simp only []
  rw [parseMembers_member U _ _ (ascii "link") .link c.Link _
      (parseString_key _ (by decide) (by decide)) rfl hl,
    skipSpace_indent4, skipSpace_of_not_space 0x7D _ (by decide)]
  simp [setField]

theorem marshalCVE_length_pos (c : CVE) : 0 < (marshalCVE c).length := by
  simp [marshalCVE, ascii]

theorem marshalElems_length (c : CVE) (l : List CVE) :
    l.length + 1 ≤ (marshalElems (c :: l)).length := by
  induction l generalizing c with
  | nil => simpa [marshalElems] using marshalCVE_length_pos c
  | cons c2 l ih =>
    have := ih c2
    have hpos := marshalCVE_length_pos c
    simp only [marshalElems, List.length_append, List.length_cons] at this ⊢
    omega

/-- The elements of the text of a non-empty list are read back. -/
theorem parseElements_marshalElems (U : UnicodeTables) (l : List CVE) :
    ∀ (c : CVE), (∀ x ∈ c :: l, ValidString x.Name = true ∧ ValidString x.Description = true ∧
        ValidString x.Link = true) →
    ∀ (fuel : Nat), l.length + 1 ≤ fuel → ∀ rest : GoString,
      parseElements U fuel (ascii "\n    " ++ (marshalElems (c :: l) ++ (0x0A :: 0x5D :: rest))) =
        some (c :: l, rest) := by
  induction l with
  | nil =>
    intro c hv fuel hfuel rest
    obtain ⟨n, rfl⟩ : ∃ n, fuel = n + 1 := ⟨fuel - 1, by omega⟩
    obtain ⟨h1, h2, h3⟩ := hv c (List.mem_cons_self _ _)
    rw [parseElements]
    simp only [marshalElems]
    rw [parseElement_marshalCVE U c _ h1 h2 h3]
    simp [skipSpace, isSpace]
  | cons c2 l ih =>
    intro c hv fuel hfuel rest
    obtain ⟨n, rfl⟩ : ∃ n, fuel = n + 1 := ⟨fuel - 1, by omega⟩
    obtain ⟨h1, h2, h3⟩ := hv c (List.mem_cons_self _ _)
    rw [parseElements]
    simp only [marshalElems, List.append_assoc]
    rw [parseElement_marshalCVE U c _ h1 h2 h3]
    have hcomma : skipSpace (ascii ",\n    " ++ (marshalElems (c2 :: l) ++ 0x0A :: 0x5D :: rest)) =
        0x2C :: (ascii "\n    " ++ (marshalElems (c2 :: l) ++ 0x0A :: 0x5D :: rest)) := by
      simp [ascii, skipSpace, isSpace]
    simp only [hcomma]
    rw [ih c2 (fun x hx => hv x (List.mem_cons_of_mem _ hx)) n (by simp at hfuel; omega) rest]
    rfl

theorem Unmarshal_MarshalIndent (U : UnicodeTables) (cveList : Option (List CVE))
    (hv : ∀ c ∈ cveList.getD [], ValidString c.Name = true ∧ ValidString c.Description = true ∧
      ValidString c.Link = true) :
    Unmarshal U (MarshalIndent cveList) = some cveList := by
  rcases cveList with _ | _ | ⟨c, l⟩
  · rfl
  · rfl
  · have hopen : skipSpace (ascii "[\n    " ++ marshalElems (c :: l) ++ ascii "\n]") =
        0x5B :: (ascii "\n    " ++ (marshalElems (c :: l) ++ (0x0A :: 0x5D :: []))) := by
      simp [ascii, skipSpace, isSpace]
    have hfirst : ∃ t, skipSpace (ascii "\n    " ++ (marshalElems (c :: l) ++ (0x0A :: 0x5D :: [])))
        = 0x7B :: t := by
      rw [skipSpace_indent4]
      rcases l with _ | ⟨c2, l⟩
      · simp only [marshalElems]
        rw [marshalCVE_append, skipSpace_of_not_space 0x7B _ (by decide)]
        exact ⟨_, rfl⟩
      · simp only [marshalElems, List.append_assoc]
        rw [marshalCVE_append, skipSpace_of_not_space 0x7B _ (by decide)]
        exact ⟨_, rfl⟩
    obtain ⟨t, ht⟩ := hfirst
    have hlen := marshalElems_length c l
    rw [Unmarshal, MarshalIndent, hopen]
    simp only [ht]
    rw [parseElements_marshalElems U l c hv _ (by simp [ascii]; omega) []]
    simp [skipSpace]
/-! ### Lemmas on the merge -/

theorem isDuplicate_eq_any (l : List CVE) (c : CVE) :
    isDuplicate l c = l.any fun s => decide (s.Name = c.Name) := by
  induction l with
  | nil => rfl
  | cons s rest ih =>
    by_cases h : s.Name = c.Name
    · simp [isDuplicate, h]
    · simp [isDuplicate, h, ih]

theorem combineBatch_cveList (st : CombineState) (result : List CVE) :
    (combineBatch st result).cveList = dedupInto st.cveList result := by
  induction result generalizing st with
  | nil => rfl
  | cons c rest ih =>
    simp only [combineBatch, List.foldl_cons] at ih ⊢
    rw [ih]
    simp only [combineStep, isDuplicate_eq_any, dedupInto]
    split <;> rfl

theorem dedupInto_append (acc l₁ l₂ : List CVE) :
    dedupInto acc (l₁ ++ l₂) = dedupInto (dedupInto acc l₁) l₂ := by
  induction l₁ generalizing acc with
  | nil => rfl
  | cons c rest ih =>
    simp only [List.cons_append, dedupInto]
    split <;> exact ih _

theorem foldl_combineBatch_cveList (st : CombineState) (resultChan : List (List CVE)) :
    (resultChan.foldl combineBatch st).cveList = dedupInto st.cveList resultChan.flatten := by
  induction resultChan generalizing st with
  | nil => rfl
  | cons b rest ih =>
    simp only [List.foldl_cons, List.flatten_cons, dedupInto_append]
    rw [ih, combineBatch_cveList]

theorem combineCVEs_eq_dedupInto (resultChan : List (List CVE)) (cveList : List CVE) :
    combineCVEs resultChan cveList = dedupInto cveList resultChan.flatten :=
  foldl_combineBatch_cveList _ _


theorem dedupInto_names_nodup (acc l : List CVE) (h : (acc.map CVE.Name).Nodup) :
    ((dedupInto acc l).map CVE.Name).Nodup := by
  induction l generalizing acc with
  | nil => exact h
  | cons c rest ih =>
    simp only [dedupInto]
    split
    · exact ih acc h
    · rename_i hc
      apply ih
      simp only [List.map_append, List.map_cons, List.map_nil]
      rw [List.nodup_append]
      refine ⟨h, List.nodup_singleton _, ?_⟩
      simp only [List.disjoint_singleton, List.mem_map, not_exists, not_and]
      intro s hs hname
      exact hc (List.any_eq_true.mpr ⟨s, hs, by simpa using hname⟩)

theorem dedupInto_find? (acc l : List CVE) (n : GoString) :
    (dedupInto acc l).find? (fun c => decide (c.Name = n)) =
      (acc ++ l).find? (fun c => decide (c.Name = n)) := by
  induction l generalizing acc with
  | nil => simp [dedupInto]
  | cons c rest ih =>
    simp only [dedupInto]
    split
    · rename_i hc
      rw [ih, List.find?_append, List.find?_append, List.find?_cons]
      obtain ⟨s, hs, hname⟩ := List.any_eq_true.mp hc
      have hname : s.Name = c.Name := by simpa using hname
      by_cases hn : c.Name = n
      · have : (acc.find? fun c => decide (c.Name = n)).isSome := by
          rw [List.find?_isSome]
          exact ⟨s, hs, by simp [hname, hn]⟩
        obtain ⟨r, hr⟩ := Option.isSome_iff_exists.mp this
        simp [hr]
      · simp [hn]
    · rw [ih, List.append_assoc, List.singleton_append]

theorem filter_eq_singleton_of_find? (l : List CVE) (n : GoString) (r : CVE)
    (hnd : (l.map CVE.Name).Nodup)
    (hf : l.find? (fun c => decide (c.Name = n)) = some r) :
    l.filter (fun c => decide (c.Name = n)) = [r] := by
  induction l with
  | nil => simp at hf
  | cons c rest ih =>
    rw [List.map_cons, List.nodup_cons] at hnd
    by_cases hn : c.Name = n
    · have hcr : c = r := by simpa [List.find?_cons, hn] using hf
      subst hcr
      have : rest.filter (fun c => decide (c.Name = n)) = [] := by
        rw [List.filter_eq_nil_iff]
        intro a ha hdec
        have han : a.Name = n := by simpa using hdec
        exact hnd.1 (List.mem_map.mpr ⟨a, ha, han.trans hn.symm⟩)
      simp [List.filter_cons, hn, this]
    · have hf2 : rest.find? (fun c => decide (c.Name = n)) = some r := by
        simpa [List.find?_cons, hn] using hf
      simp [List.filter_cons, hn, ih hnd.2 hf2]

/-- Index form of the specification, for a list that continues a prefix `pre`
and whose first element has index `k`. -/
theorem enumFrom_filter_cons (pre : List CVE) (c : CVE) (rest : List CVE) (k : Nat) :
    (((c :: rest).enumFrom k).filter fun p =>
        !((pre ++ (c :: rest).take (p.1 - k)).any fun s => decide (s.Name = p.2.Name))).map Prod.snd
      = (if pre.any (fun s => decide (s.Name = c.Name)) then [] else [c]) ++
        ((rest.enumFrom (k + 1)).filter fun p =>
          !(((pre ++ [c]) ++ rest.take (p.1 - (k + 1))).any
            fun s => decide (s.Name = p.2.Name))).map Prod.snd := by
  have hrest : ((rest.enumFrom (k + 1)).filter fun p =>
        !((pre ++ (c :: rest).take (p.1 - k)).any fun s => decide (s.Name = p.2.Name)))
      = ((rest.enumFrom (k + 1)).filter fun p =>
          !(((pre ++ [c]) ++ rest.take (p.1 - (k + 1))).any
            fun s => decide (s.Name = p.2.Name))) := by
    apply List.filter_congr
    intro p hp
    have hk : k + 1 ≤ p.1 := by
      have := List.le_fst_of_mem_enumFrom hp
      exact this
    have : p.1 - k = (p.1 - (k + 1)) + 1 := by omega
    rw [this, List.take_succ_cons, List.append_assoc, List.singleton_append]
  simp only [List.enumFrom_cons, List.filter_cons, Nat.sub_self, List.take_zero,
    List.append_nil, hrest]
  split <;> rename_i h
  · have : pre.any (fun s => decide (s.Name = c.Name)) = false := by simpa using h
    simp [this]
  · have : pre.any (fun s => decide (s.Name = c.Name)) = true := by simpa using h
    simp [this]

theorem dedupInto_eq_enumFrom (acc pre l : List CVE) (k : Nat)
    (hnames : ∀ n, (acc.any fun s => decide (s.Name = n)) = (pre.any fun s => decide (s.Name = n))) :
    dedupInto acc l = acc ++
      ((l.enumFrom k).filter fun p =>
        !((pre ++ l.take (p.1 - k)).any fun s => decide (s.Name = p.2.Name))).map Prod.snd := by
  induction l generalizing acc pre k with
  | nil => simp [dedupInto]
  | cons c rest ih =>
    rw [enumFrom_filter_cons]
    simp only [dedupInto]
    rw [← hnames c.Name]
    split <;> rename_i hc
    · rw [ih acc (pre ++ [c]) (k + 1)]
      · simp
      · intro n
        rw [List.any_append, ← hnames n]
        by_cases hn : c.Name = n
        · subst hn; simp [hc]
        · simp [hn]
    · rw [ih (acc ++ [c]) (pre ++ [c]) (k + 1)]
      · simp
      · intro n
        rw [List.any_append, List.any_append, hnames n]

theorem combineCVEs_nil_eq_removeEarlierNames (resultChan : List (List CVE)) :
    combineCVEs resultChan [] = removeEarlierNames resultChan.flatten := by
  rw [combineCVEs_eq_dedupInto, dedupInto_eq_enumFrom [] [] _ 0 (fun _ => rfl)]
  simp [removeEarlierNames, List.enum]

/-! ## Claims on the merge -/

theorem combineCVEs_sublist (resultChan : List (List CVE)) :
    (combineCVEs resultChan []).Sublist resultChan.flatten := by
  rw [combineCVEs_nil_eq_removeEarlierNames, removeEarlierNames]
  have h := (List.filter_sublist (l := resultChan.flatten.enum)
    (p := fun p => !((resultChan.flatten.take p.1).any
      fun c => decide (c.Name = p.2.Name)))).map Prod.snd
  rwa [List.enum_map_snd] at h

theorem combineCVEs_find? (resultChan : List (List CVE)) (n : GoString) :
    (combineCVEs resultChan []).find? (fun c => decide (c.Name = n)) =
      resultChan.flatten.find? (fun c => decide (c.Name = n)) := by
  rw [combineCVEs_eq_dedupInto, dedupInto_find?, List.nil_append]

/-- C1: dedup invariant of `combineCVEs`. For batches merged into an empty
collection and a name that occurs in some batch, the merged collection holds
exactly one record with that name, and it is the first record with that name in
the order the batches were received. -/
theorem combineCVEs_dedup_invariant (resultChan : List (List CVE)) (n : GoString)
    (hn : ∃ b ∈ resultChan, ∃ c ∈ b, c.Name = n) :
    ∃ r, resultChan.flatten.find? (fun c => decide (c.Name = n)) = some r ∧
      (combineCVEs resultChan []).filter (fun c => decide (c.Name = n)) = [r] := by
  obtain ⟨b, hb, c, hc, hcn⟩ := hn
  have hsome : (resultChan.flatten.find? fun c => decide (c.Name = n)).isSome := by
    rw [List.find?_isSome]
    exact ⟨c, List.mem_flatten.mpr ⟨b, hb, hc⟩, by simp [hcn]⟩
  obtain ⟨r, hr⟩ := Option.isSome_iff_exists.mp hsome
  refine ⟨r, hr, ?_⟩
  apply filter_eq_singleton_of_find?
  · rw [combineCVEs_eq_dedupInto]
    exact dedupInto_names_nodup [] _ List.nodup_nil
  · rw [combineCVEs_find?, hr]

/-- Witness of C1: the scenario of two keywords returning the same name. -/
theorem combineCVEs_dedup_invariant_witness :
    (∃ b ∈ sameNameBatches, ∃ c ∈ b, c.Name = ascii "CVE-2020-0001") ∧
    ∃ r, sameNameBatches.flatten.find? (fun c => decide (c.Name = ascii "CVE-2020-0001")) = some r ∧
      (combineCVEs sameNameBatches []).filter
        (fun c => decide (c.Name = ascii "CVE-2020-0001")) = [r] :=
  have h : ∃ b ∈ sameNameBatches, ∃ c ∈ b, c.Name = ascii "CVE-2020-0001" :=
    ⟨[⟨ascii "CVE-2020-0001", ascii "from keyword a", ascii "/a"⟩], List.mem_cons_self _ _,
      ⟨ascii "CVE-2020-0001", ascii "from keyword a", ascii "/a"⟩, List.mem_cons_self _ _, rfl⟩
  ⟨h, combineCVEs_dedup_invariant sameNameBatches (ascii "CVE-2020-0001") h⟩

/-- C5: merge order of `combineCVEs`. The merged collection is the concatenation
of the batches in receipt order with every record whose name occurred earlier
removed; every name of a batch is present in the result, every record of the
result comes from a batch, and the result keeps the order of the concatenation. -/
theorem combineCVEs_merge_order (resultChan : List (List CVE)) :
    combineCVEs resultChan [] = removeEarlierNames resultChan.flatten ∧
    (∀ c ∈ resultChan.flatten, ∃ r ∈ combineCVEs resultChan [], r.Name = c.Name) ∧
    (∀ r ∈ combineCVEs resultChan [], r ∈ resultChan.flatten) ∧
    (combineCVEs resultChan []).Sublist resultChan.flatten := by
  refine ⟨combineCVEs_nil_eq_removeEarlierNames _, ?_, ?_, combineCVEs_sublist _⟩
  · intro c hc
    have hsome : ((combineCVEs resultChan []).find? fun r => decide (r.Name = c.Name)).isSome := by
      rw [combineCVEs_find?, List.find?_isSome]
      exact ⟨c, hc, by simp⟩
    rw [List.find?_isSome] at hsome
    obtain ⟨r, hr, hname⟩ := hsome
    exact ⟨r, hr, by simpa using hname⟩
  · intro r hr
    exact (combineCVEs_sublist resultChan).subset hr

/-! ## The sort step -/

/-! ## Rearrangements of a range -/

theorem length_swap {α : Type} [Inhabited α] (l : List α) (i j : Nat) : (swap l i j).length = l.length := by
  simp [swap]

theorem nth_swap {α : Type} [Inhabited α] (l : List α) (i j k : Nat) (hi : i < l.length) (hj : j < l.length) :
    nth (swap l i j) k = if k = j then nth l i else if k = i then nth l j else nth l k := by
  unfold swap nth
  simp only [List.getD_eq_getElem?_getD, List.getElem?_set, List.length_set]
  by_cases h1 : k = j
  · subst h1; simp [hj]
  · by_cases h2 : k = i
    · subst h2
      have : ¬ j = k := fun e => h1 e.symm
      simp [this, hi, h1]
    · have h3 : ¬ j = k := fun e => h1 e.symm
      have h4 : ¬ i = k := fun e => h2 e.symm
      simp [h1, h2, h3, h4]

theorem PermOn.refl {α : Type} [Inhabited α] (a b : Nat) (l : List α) : PermOn a b l l :=
  ⟨rfl, Equiv.refl _, fun _ _ => rfl, fun _ => rfl⟩

theorem PermOn.length_eq {α : Type} [Inhabited α] {a b : Nat} {l l' : List α} (h : PermOn a b l l') :
    l'.length = l.length := h.1

theorem PermOn.trans {α : Type} [Inhabited α] {a b : Nat} {l₁ l₂ l₃ : List α} (h₁ : PermOn a b l₁ l₂)
    (h₂ : PermOn a b l₂ l₃) : PermOn a b l₁ l₃ := by
  obtain ⟨hl₁, σ₁, hf₁, hn₁⟩ := h₁
  obtain ⟨hl₂, σ₂, hf₂, hn₂⟩ := h₂
  refine ⟨hl₂.trans hl₁, σ₂.trans σ₁, ?_, ?_⟩
  · intro k hk
    simp only [Equiv.trans_apply]
    rw [hf₂ k hk, hf₁ k hk]
  · intro k
    simp only [Equiv.trans_apply]
    rw [hn₂, hn₁]

theorem PermOn.mono {α : Type} [Inhabited α] {a b a' b' : Nat} {l l' : List α} (h : PermOn a b l l') (ha : a' ≤ a)
    (hb : b ≤ b') : PermOn a' b' l l' := by
  obtain ⟨hl, σ, hf, hn⟩ := h
  exact ⟨hl, σ, fun k hk => hf k (by omega), hn⟩

theorem PermOn.swap {α : Type} [Inhabited α] {a b : Nat} (l : List α) (i j : Nat) (hia : a ≤ i) (hib : i < b)
    (hja : a ≤ j) (hjb : j < b) (hb : b ≤ l.length) : PermOn a b l (swap l i j) := by
  refine ⟨length_swap l i j, Equiv.swap i j, ?_, ?_⟩
  · intro k hk
    exact Equiv.swap_apply_of_ne_of_ne (by omega) (by omega)
  · intro k
    rw [nth_swap l i j k (by omega) (by omega)]
    by_cases h1 : k = j
    · subst h1; simp
    · by_cases h2 : k = i
      · subst h2; simp [h1]
      · rw [Equiv.swap_apply_of_ne_of_ne h2 h1]; simp [h1, h2]

/-- Outside the range nothing changes. -/
theorem PermOn.frame {α : Type} [Inhabited α] {a b : Nat} {l l' : List α} (h : PermOn a b l l') (k : Nat)
    (hk : k < a ∨ b ≤ k) : nth l' k = nth l k := by
  obtain ⟨_, σ, hf, hn⟩ := h
  rw [hn, hf k hk]

/-- Every element of the range after the rearrangement is an element of the range
before it. -/
theorem PermOn.image {α : Type} [Inhabited α] {a b : Nat} {l l' : List α} (h : PermOn a b l l') (k : Nat)
    (hka : a ≤ k) (hkb : k < b) : ∃ m, a ≤ m ∧ m < b ∧ nth l' k = nth l m := by
  obtain ⟨_, σ, hf, hn⟩ := h
  refine ⟨σ k, ?_, ?_, hn k⟩
  · by_contra hlt
    have := hf (σ k) (Or.inl (by omega))
    have := σ.injective this
    omega
  · by_contra hge
    have := hf (σ k) (Or.inr (by omega))
    have := σ.injective this
    omega

/-- A property of all elements of the range is kept by the rearrangement. -/
theorem PermOn.forall {α : Type} [Inhabited α] {a b : Nat} {l l' : List α} (h : PermOn a b l l') (P : α → Prop)
    (hP : ∀ k, a ≤ k → k < b → P (nth l k)) : ∀ k, a ≤ k → k < b → P (nth l' k) := by
  intro k hka hkb
  obtain ⟨m, hma, hmb, e⟩ := h.image k hka hkb
  rw [e]
  exact hP m hma hmb

theorem list_eq_map_nth {α : Type} [Inhabited α] (l : List α) : l = (List.range l.length).map (nth l) := by
  apply List.ext_getElem
  · simp
  · intro i h1 h2
    simp [nth, List.getD_eq_getElem?_getD, List.getElem?_eq_getElem h1]

/-- A rearrangement of a range inside the slice is a permutation of the slice. -/
theorem PermOn.perm {α : Type} [Inhabited α] {a b : Nat} {l l' : List α} (h : PermOn a b l l') (hb : b ≤ l.length) :
    l'.Perm l := by
  obtain ⟨hl, σ, hf, hn⟩ := h
  rw [list_eq_map_nth l', list_eq_map_nth l, hl]
  have hfun : (List.range l.length).map (nth l') = ((List.range l.length).map σ).map (nth l) := by
    rw [List.map_map]
    exact List.map_congr_left (fun k _ => hn k)
  rw [hfun]
  apply List.Perm.map
  have hlt : ∀ k, k < l.length → σ k < l.length := by
    intro k hk
    by_contra hge
    have := hf (σ k) (Or.inr (by omega))
    have := σ.injective this
    omega
  have hlt' : ∀ k, k < l.length → σ.symm k < l.length := by
    intro k hk
    by_contra hge
    have h1 := hf (σ.symm k) (Or.inr (by omega))
    rw [Equiv.apply_symm_apply] at h1
    omega
  rw [List.perm_ext_iff_of_nodup ((List.nodup_range _).map σ.injective) (List.nodup_range _)]
  intro x
  simp only [List.mem_map, List.mem_range]
  constructor
  · rintro ⟨k, hk, rfl⟩
    exact hlt k hk
  · intro hx
    exact ⟨σ.symm x, hlt' x hx, by simp⟩

/-! ## Insertion sort -/

theorem insertionInner_spec {α : Type} [Inhabited α] (less : α → α → Bool) (key : α → Int)
    (hless : ∀ x y, less x y = true ↔ key x < key y) (a : Nat) :
    ∀ (j : Nat) (l : List α), a ≤ j → j < l.length → SortedOn key l a j →
      PermOn a (j + 1) l (insertionInner less a j l) ∧
        SortedOn key (insertionInner less a j l) a (j + 1) := by
  intro j
  induction j with
  | zero =>
    intro l _ _ _
    refine ⟨PermOn.refl _ _ _, ?_⟩
    intro i j _ hij hj
    omega
  | succ j ih =>
    intro l haj hjl hs
    simp only [insertionInner]
    split
    · rename_i hc
      obtain ⟨hgt, hlt⟩ := hc
      rw [hless] at hlt
      have hsw : ∀ k, nth (swap l (j + 1) j) k =
          if k = j then nth l (j + 1) else if k = j + 1 then nth l j else nth l k :=
        fun k => nth_swap l (j + 1) j k hjl (by omega)
      have hs1 : SortedOn key (swap l (j + 1) j) a j := by
        intro i j' hi hij hj'
        rw [hsw, hsw]
        simp only [show ¬ i = j by omega, show ¬ i = j + 1 by omega, show ¬ j' = j by omega,
          show ¬ j' = j + 1 by omega, if_false]
        exact hs i j' hi hij (by omega)
      obtain ⟨hp, hsorted⟩ := ih (swap l (j + 1) j) (by omega)
        (by rw [length_swap]; omega) hs1
      refine ⟨?_, ?_⟩
      · exact (PermOn.swap l (j + 1) j (by omega) (by omega) (by omega) (by omega)
          (by omega)).trans (hp.mono (le_refl _) (by omega))
      · intro i j' hi hij hj'
        by_cases hlast : j' = j + 1
        · subst hlast
          rw [hp.frame (j + 1) (Or.inr (le_refl _)), hsw]
          simp only [show ¬ j + 1 = j by omega, if_true, if_false]
          refine hp.forall (fun x => key x ≤ key (nth l j)) ?_ i hi (by omega)
          intro k hka hkb
          rw [hsw]
          by_cases hkj : k = j
          · simp only [hkj, if_true]; omega
          · simp only [hkj, show ¬ k = j + 1 by omega, if_false]
            exact hs k j hka (by omega) (by omega)
        · exact hsorted i j' hi hij (by omega)
    · rename_i hc
      refine ⟨PermOn.refl _ _ _, ?_⟩
      intro i j' hi hij hj'
      by_cases hlast : j' = j + 1
      · subst hlast
        have hgt : j + 1 > a := by omega
        have hnl : ¬ less (nth l (j + 1)) (nth l j) = true := fun h => hc ⟨hgt, h⟩
        rw [hless] at hnl
        by_cases hij2 : i = j
        · subst hij2; omega
        · have := hs i j hi (by omega) (by omega)
          omega
      · exact hs i j' hi hij (by omega)

/-- The inner loop run down to index 1 does what the loop run down to `a` does,
when the element before the range is not above the element moved. -/
theorem insertionInner_zero_eq {α : Type} [Inhabited α] (less : α → α → Bool) (key : α → Int)
    (hless : ∀ x y, less x y = true ↔ key x < key y) (a : Nat) (ha : 0 < a) :
    ∀ (j : Nat) (l : List α), a ≤ j → j < l.length →
      key (nth l (a - 1)) ≤ key (nth l j) →
      insertionInner less 0 j l = insertionInner less a j l := by
  intro j
  induction j with
  | zero => intro l h; omega
  | succ j ih =>
    intro l haj hjl hlow
    simp only [insertionInner]
    by_cases hgt : j + 1 > a
    · by_cases hlt : less (nth l (j + 1)) (nth l j) = true
      · have h0 : j + 1 > 0 ∧ less (nth l (j + 1)) (nth l j) = true := ⟨by omega, hlt⟩
        have h1 : j + 1 > a ∧ less (nth l (j + 1)) (nth l j) = true := ⟨hgt, hlt⟩
        rw [if_pos h0, if_pos h1]
        apply ih _ (by omega) (by rw [length_swap]; omega)
        rw [nth_swap l (j + 1) j _ hjl (by omega), nth_swap l (j + 1) j _ hjl (by omega)]
        simp only [show ¬ a - 1 = j by omega, show ¬ a - 1 = j + 1 by omega, if_true, if_false]
        exact hlow
      · have h0 : ¬ (j + 1 > 0 ∧ less (nth l (j + 1)) (nth l j) = true) := fun h => hlt h.2
        have h1 : ¬ (j + 1 > a ∧ less (nth l (j + 1)) (nth l j) = true) := fun h => hlt h.2
        rw [if_neg h0, if_neg h1]
    · have hja : j + 1 = a := by omega
      have hnl : ¬ less (nth l (j + 1)) (nth l j) = true := by
        rw [hless]
        have : a - 1 = j := by omega
        rw [this] at hlow
        omega
      have h0 : ¬ (j + 1 > 0 ∧ less (nth l (j + 1)) (nth l j) = true) := fun h => hnl h.2
      have h1 : ¬ (j + 1 > a ∧ less (nth l (j + 1)) (nth l j) = true) := fun h => hnl h.2
      rw [if_neg h0, if_neg h1]

theorem insertionOuter_spec {α : Type} [Inhabited α] (less : α → α → Bool) (key : α → Int)
    (hless : ∀ x y, less x y = true ↔ key x < key y) (a : Nat) :
    ∀ (n i : Nat) (l : List α), a ≤ i → i + n ≤ l.length → SortedOn key l a i →
      PermOn a (i + n) l (insertionOuter less a n i l) ∧
        SortedOn key (insertionOuter less a n i l) a (i + n) := by
  intro n
  induction n with
  | zero =>
    intro i l _ _ hs
    exact ⟨PermOn.refl _ _ _, hs⟩
  | succ n ih =>
    intro i l hai hlen hs
    simp only [insertionOuter]
    obtain ⟨hp1, hs1⟩ := insertionInner_spec less key hless a i l hai (by omega) hs
    obtain ⟨hp2, hs2⟩ := ih (i + 1) (insertionInner less a i l) (by omega)
      (by rw [hp1.length_eq]; omega) hs1
    have e : i + 1 + n = i + (n + 1) := by omega
    rw [e] at hp2 hs2
    exact ⟨(hp1.mono (le_refl _) (by omega)).trans hp2, hs2⟩

theorem insertionSort_func_spec {α : Type} [Inhabited α] (less : α → α → Bool) (key : α → Int)
    (hless : ∀ x y, less x y = true ↔ key x < key y) (l : List α) (a b : Nat)
    (hb : b ≤ l.length) :
    PermOn a b l (insertionSort_func less l a b) ∧
      SortedOn key (insertionSort_func less l a b) a b := by
  unfold insertionSort_func
  by_cases hab : a + 1 ≤ b
  · have hs0 : SortedOn key l a (a + 1) := by
      intro i j hi hij hj; omega
    obtain ⟨hp, hs⟩ := insertionOuter_spec less key hless a (b - (a + 1)) (a + 1) l (by omega)
      (by omega) hs0
    have e : a + 1 + (b - (a + 1)) = b := by omega
    rw [e] at hp hs
    exact ⟨hp, hs⟩
  · have e : b - (a + 1) = 0 := by omega
    rw [e]
    simp only [insertionOuter]
    exact ⟨PermOn.refl _ _ _, fun i j hi hij hj => by omega⟩

/-! ## Heap sort -/

theorem siftDownLoop_spec {α : Type} [Inhabited α] (less : α → α → Bool) (key : α → Int)
    (hless : ∀ x y, less x y = true ↔ key x < key y) (hi first lo : Nat) :
    ∀ (n root : Nat) (l : List α), hi ≤ root + n → lo ≤ root → first + hi ≤ l.length →
      (∀ p c, lo ≤ p → p ≠ root → (c = 2 * p + 1 ∨ c = 2 * p + 2) → c < hi →
        key (nth l (first + c)) ≤ key (nth l (first + p))) →
      (∀ p c, lo ≤ p → (root = 2 * p + 1 ∨ root = 2 * p + 2) →
        (c = 2 * root + 1 ∨ c = 2 * root + 2) → c < hi →
        key (nth l (first + c)) ≤ key (nth l (first + p))) →
      PermOn (first + lo) (first + hi) l (siftDownLoop less hi first n root l) ∧
        HeapFrom key (siftDownLoop less hi first n root l) first lo hi := by
  intro n
  induction n with
  | zero =>
    intro root l hn hlo hlen hheap _
    refine ⟨PermOn.refl _ _ _, ?_⟩
    intro p c hp hc hchi
    by_cases hpr : p = root
    · omega
    · exact hheap p c hp hpr hc hchi
  | succ n ih =>
    intro root l hn hlo hlen hheap hgrand
    simp only [siftDownLoop]
    split
    · rename_i hch
      refine ⟨PermOn.refl _ _ _, ?_⟩
      intro p c hp hc hchi
      by_cases hpr : p = root
      · omega
      · exact hheap p c hp hpr hc hchi
    · rename_i hch
      -- the greater of the two children
      obtain ⟨child1, hdef, hrange, hmax⟩ : ∃ child1,
          (if 2 * root + 1 + 1 < hi ∧
              less (nth l (first + (2 * root + 1))) (nth l (first + (2 * root + 1) + 1)) = true
            then 2 * root + 1 + 1 else 2 * root + 1) = child1 ∧
          ((child1 = 2 * root + 1 ∨ child1 = 2 * root + 2) ∧ child1 < hi) ∧
          ∀ c, (c = 2 * root + 1 ∨ c = 2 * root + 2) → c < hi →
            key (nth l (first + c)) ≤ key (nth l (first + child1)) := by
        split
        · rename_i hc2
          obtain ⟨hlt, hl2⟩ := hc2
          rw [hless] at hl2
          refine ⟨_, rfl, ⟨Or.inr (by omega), hlt⟩, ?_⟩
          intro c hc _
          rcases hc with hc | hc
          · subst hc
            have e : first + (2 * root + 1) + 1 = first + (2 * root + 1 + 1) := by omega
            rw [e] at hl2
            omega
          · have e : 2 * root + 1 + 1 = c := by omega
            rw [e]
        · rename_i hc2
          refine ⟨_, rfl, ⟨Or.inl rfl, by omega⟩, ?_⟩
          intro c hc hchi
          rcases hc with hc | hc
          · rw [hc]
          · have hlt : 2 * root + 1 + 1 < hi := by omega
            have hnl : ¬ less (nth l (first + (2 * root + 1)))
                (nth l (first + (2 * root + 1) + 1)) = true := fun h => hc2 ⟨hlt, h⟩
            rw [hless] at hnl
            have e : first + (2 * root + 1) + 1 = first + c := by omega
            rw [e] at hnl
            omega
      simp only [hdef]
      obtain ⟨hc1, hc1hi⟩ := hrange
      split
      · rename_i hnl
        have hnl' : ¬ less (nth l (first + root)) (nth l (first + child1)) = true := by
          rw [hnl]; simp
        rw [hless] at hnl'
        refine ⟨PermOn.refl _ _ _, ?_⟩
        intro p c hp hc hchi
        by_cases hpr : p = root
        · subst hpr
          have := hmax c hc hchi
          omega
        · exact hheap p c hp hpr hc hchi
      · rename_i hlt
        have hlt' : less (nth l (first + root)) (nth l (first + child1)) = true := by
          simpa using hlt
        rw [hless] at hlt'
        have hsw : ∀ x, nth (swap l (first + root) (first + child1)) (first + x) =
            if x = child1 then nth l (first + root)
            else if x = root then nth l (first + child1) else nth l (first + x) := by
          intro x
          rw [nth_swap l _ _ _ (by omega) (by omega)]
          by_cases h1 : x = child1
          · simp [h1]
          · by_cases h2 : x = root
            · simp [h1, h2]
            · simp [h1, h2]
        obtain ⟨hp, hh⟩ := ih child1 (swap l (first + root) (first + child1)) (by omega)
          (by omega) (by rw [length_swap]; exact hlen)
          (by
            intro p c hplo hpne hc hchi
            rw [hsw, hsw]
            by_cases hpr : p = root
            · subst hpr
              by_cases hcc : c = child1
              · subst hcc
                simp only [if_true, show ¬ p = c by omega, if_false]
                omega
              · simp only [hcc, show ¬ c = p by omega, if_true, if_false,
                  show ¬ p = child1 by omega]
                exact hmax c hc hchi
            · simp only [hpne, hpr, if_false]
              by_cases hcr : c = root
              · subst hcr
                simp only [show ¬ c = child1 by omega, if_true, if_false]
                exact hgrand p child1 hplo hc hc1 hc1hi
              · have hcc : ¬ c = child1 := by omega
                simp only [hcr, hcc, if_false]
                exact hheap p c hplo hpr hc hchi)
          (by
            intro p c hplo hpc hc hchi
            rw [hsw, hsw]
            have hpr : p = root := by omega
            subst hpr
            simp only [show ¬ c = child1 by omega, show ¬ c = p by omega,
              show ¬ p = child1 by omega, if_true, if_false]
            exact hheap child1 c (by omega) (by omega) hc hchi)
        exact ⟨(PermOn.swap l _ _ (by omega) (by omega) (by omega) (by omega) hlen).trans hp, hh⟩

theorem HeapFrom.root_max {α : Type} [Inhabited α] {key : α → Int} {l : List α}
    {first hi : Nat} (h : HeapFrom key l first 0 hi) :
    ∀ k, k < hi → key (nth l (first + k)) ≤ key (nth l (first + 0)) := by
  intro k
  induction k using Nat.strong_induction_on with
  | _ k ih =>
    intro hk
    rcases Nat.eq_zero_or_pos k with h0 | hpos
    · subst h0; exact le_refl _
    · have h1 := h ((k - 1) / 2) k (Nat.zero_le _) (by omega) hk
      have h2 := ih ((k - 1) / 2) (by omega) (by omega)
      omega

theorem heapBuild_spec {α : Type} [Inhabited α] (less : α → α → Bool) (key : α → Int)
    (hless : ∀ x y, less x y = true ↔ key x < key y) (hi first : Nat) :
    ∀ (m : Nat) (l : List α), first + hi ≤ l.length → HeapFrom key l first m hi →
      PermOn first (first + hi) l (heapBuild less hi first m l) ∧
        HeapFrom key (heapBuild less hi first m l) first 0 hi := by
  intro m
  induction m with
  | zero => intro l _ h; exact ⟨PermOn.refl _ _ _, h⟩
  | succ i ih =>
    intro l hlen hheap
    simp only [heapBuild, siftDown_func]
    obtain ⟨hp, hh⟩ := siftDownLoop_spec less key hless hi first i hi i l (by omega)
      (le_refl _) hlen
      (fun p c hp hpne hc hchi => hheap p c (by omega) hc hchi)
      (fun p c hp hpc _ _ => by omega)
    obtain ⟨hp2, hh2⟩ := ih _ (by rw [hp.length_eq]; exact hlen) hh
    exact ⟨(hp.mono (by omega) (le_refl _)).trans hp2, hh2⟩

theorem heapPop_spec {α : Type} [Inhabited α] (less : α → α → Bool) (key : α → Int)
    (hless : ∀ x y, less x y = true ↔ key x < key y) (hi first : Nat) :
    ∀ (m : Nat) (l : List α), m ≤ hi → first + hi ≤ l.length → HeapFrom key l first 0 m →
      SortedOn key l (first + m) (first + hi) →
      (∀ k k', k < m → m ≤ k' → k' < hi →
        key (nth l (first + k)) ≤ key (nth l (first + k'))) →
      PermOn first (first + hi) l (heapPop less first m l) ∧
        SortedOn key (heapPop less first m l) first (first + hi) := by
  intro m
  induction m with
  | zero =>
    intro l _ _ _ hs _
    exact ⟨PermOn.refl _ _ _, hs⟩
  | succ i ih =>
    intro l hm hlen hheap hs hcross
    simp only [heapPop, siftDown_func]
    have hmax := hheap.root_max
    have hsw : ∀ x, nth (swap l first (first + i)) (first + x) =
        if x = i then nth l first else if x = 0 then nth l (first + i) else nth l (first + x) := by
      intro x
      rw [nth_swap l _ _ _ (by omega) (by omega)]
      by_cases h1 : x = i
      · simp [h1]
      · by_cases h2 : x = 0
        · subst h2
          have h3 : ¬ i = 0 := fun e => h1 e.symm
          simp [h1, h3]
        · simp [h1, h2]
    have hplen : (swap l first (first + i)).length = l.length := length_swap _ _ _
    obtain ⟨hp, hh⟩ := siftDownLoop_spec less key hless i first 0 i 0
      (swap l first (first + i)) (by omega) (le_refl _) (by rw [hplen]; omega)
      (by
        intro p c _ hpne hc hchi
        rw [hsw, hsw]
        simp only [show ¬ c = i by omega, show ¬ c = 0 by omega, show ¬ p = i by omega, hpne,
          if_false]
        exact hheap p c (Nat.zero_le _) hc (by omega))
      (fun p c _ hpc _ _ => by omega)
    have hp' : PermOn first (first + i) (swap l first (first + i))
        (siftDownLoop less i first i 0 (swap l first (first + i))) := by
      simpa using hp
    -- the elements of the heap after the swap are elements of the heap before it
    have hold : ∀ x, x < i → ∃ y, y < i + 1 ∧
        nth (swap l first (first + i)) (first + x) = nth l (first + y) := by
      intro x hx
      rw [hsw]
      by_cases h2 : x = 0
      · exact ⟨i, by omega, by simp [h2, show ¬ 0 = i by omega]⟩
      · exact ⟨x, by omega, by simp [h2, show ¬ x = i by omega]⟩
    have hnew : ∀ k, k < i → ∃ y, y < i + 1 ∧
        nth (siftDownLoop less i first i 0 (swap l first (first + i))) (first + k) =
          nth l (first + y) := by
      intro k hk
      obtain ⟨m, hm1, hm2, e⟩ := hp'.image (first + k) (by omega) (by omega)
      obtain ⟨y, hy, e2⟩ := hold (m - first) (by omega)
      refine ⟨y, hy, ?_⟩
      rw [e, ← e2]
      congr 1
      omega
    have hframe : ∀ x, i ≤ x → nth (siftDownLoop less i first i 0 (swap l first (first + i)))
        (first + x) = nth (swap l first (first + i)) (first + x) :=
      fun x hx => hp'.frame _ (Or.inr (by omega))
    obtain ⟨hp2, hs2⟩ := ih _ (by omega) (by rw [hp.length_eq, hplen]; exact hlen) hh
      (by
        intro x y hx hxy hy
        obtain ⟨x', rfl⟩ : ∃ x', x = first + x' := ⟨x - first, by omega⟩
        obtain ⟨y', rfl⟩ : ∃ y', y = first + y' := ⟨y - first, by omega⟩
        rw [hframe x' (by omega), hframe y' (by omega), hsw, hsw]
        simp only [show ¬ y' = i by omega, show ¬ y' = 0 by omega, if_false]
        by_cases hxi : x' = i
        · simp only [hxi, if_true]
          have := hcross 0 y' (by omega) (by omega) (by omega)
          simpa using this
        · simp only [hxi, show ¬ x' = 0 by omega, if_false]
          exact hs _ _ (by omega) (by omega) (by omega))
      (by
        intro k k' hk hk' hk'hi
        obtain ⟨y, hy, e⟩ := hnew k hk
        rw [e, hframe k' hk', hsw]
        by_cases hki : k' = i
        · simp only [hki, if_true]
          have := hmax y hy
          simpa using this
        · simp only [hki, show ¬ k' = 0 by omega, if_false]
          exact hcross y k' hy (by omega) hk'hi)
    refine ⟨?_, hs2⟩
    exact ((PermOn.swap l first (first + i) (le_refl _) (by omega) (by omega) (by omega)
      hlen).trans (hp'.mono (le_refl _) (by omega))).trans hp2

theorem heapSort_func_spec {α : Type} [Inhabited α] (less : α → α → Bool) (key : α → Int)
    (hless : ∀ x y, less x y = true ↔ key x < key y) (l : List α) (a b : Nat) (hab : a ≤ b)
    (hb : b ≤ l.length) :
    PermOn a b l (heapSort_func less l a b) ∧ SortedOn key (heapSort_func less l a b) a b := by
  unfold heapSort_func
  obtain ⟨hp, hh⟩ := heapBuild_spec less key hless (b - a) a ((b - a - 1) / 2 + 1) l (by omega)
    (fun p c hp hc hchi => by omega)
  obtain ⟨hp2, hs2⟩ := heapPop_spec less key hless (b - a) a (b - a) _ (le_refl _)
    (by rw [hp.length_eq]; omega) hh (fun i j hi hij hj => by omega)
    (fun k k' hk hk' hk'hi => by omega)
  have e : a + (b - a) = b := by omega
  rw [e] at hp hp2 hs2
  exact ⟨hp.trans hp2, hs2⟩

/-! ## The two partitions -/

theorem scanUp_spec (cond : Nat → Bool) :
    ∀ (n i : Nat), i ≤ scanUp cond n i ∧ scanUp cond n i ≤ i + n ∧
      (∀ k, i ≤ k → k < scanUp cond n i → cond k = true) ∧
      (scanUp cond n i = i + n ∨ cond (scanUp cond n i) = false) := by
  intro n
  induction n with
  | zero =>
    intro i
    simp only [scanUp]
    exact ⟨le_refl _, le_refl _, fun k h1 h2 => by omega, Or.inl rfl⟩
  | succ n ih =>
    intro i
    simp only [scanUp]
    split
    · rename_i hc
      obtain ⟨h1, h2, h3, h4⟩ := ih (i + 1)
      refine ⟨by omega, by omega, ?_, ?_⟩
      · intro k hk hk2
        by_cases hki : k = i
        · rw [hki]; exact hc
        · exact h3 k (by omega) hk2
      · rcases h4 with h4 | h4
        · left; omega
        · right; exact h4
    · rename_i hc
      exact ⟨le_refl _, by omega, fun k hk hk2 => by omega, Or.inr (by simpa using hc)⟩

theorem scanDown_spec (cond : Nat → Bool) :
    ∀ (n j : Nat), n ≤ j → scanDown cond n j ≤ j ∧ j ≤ scanDown cond n j + n ∧
      (∀ k, scanDown cond n j < k → k ≤ j → cond k = true) ∧
      (scanDown cond n j + n = j ∨ cond (scanDown cond n j) = false) := by
  intro n
  induction n with
  | zero =>
    intro j _
    simp only [scanDown]
    exact ⟨le_refl _, le_refl _, fun k h1 h2 => by omega, Or.inl rfl⟩
  | succ n ih =>
    intro j hj
    simp only [scanDown]
    split
    · rename_i hc
      obtain ⟨h1, h2, h3, h4⟩ := ih (j - 1) (by omega)
      refine ⟨by omega, by omega, ?_, ?_⟩
      · intro k hk hk2
        by_cases hkj : k = j
        · rw [hkj]; exact hc
        · exact h3 k hk (by omega)
      · rcases h4 with h4 | h4
        · left; omega
        · right; exact h4
    · rename_i hc
      exact ⟨le_refl _, by omega, fun k hk hk2 => by omega, Or.inr (by simpa using hc)⟩

/-- One turn of a partition loop: either the two scans have crossed, or two
elements are swapped and the state holds again on a shorter range. -/
theorem partition_step {α : Type} [Inhabited α] (c : α → Bool) (a b i j : Nat) (l : List α)
    (h : PartInv c a b i j l) :
    (scanDown (fun k => !c (nth l k)) (j + 1 - scanUp (fun k => c (nth l k)) (j + 1 - i) i) j
        < scanUp (fun k => c (nth l k)) (j + 1 - i) i ∧
      PartInv c a b (scanUp (fun k => c (nth l k)) (j + 1 - i) i)
        (scanDown (fun k => !c (nth l k)) (j + 1 - scanUp (fun k => c (nth l k)) (j + 1 - i) i) j)
        l) ∨
    (scanUp (fun k => c (nth l k)) (j + 1 - i) i <
        scanDown (fun k => !c (nth l k)) (j + 1 - scanUp (fun k => c (nth l k)) (j + 1 - i) i) j ∧
      i ≤ scanUp (fun k => c (nth l k)) (j + 1 - i) i ∧
      scanDown (fun k => !c (nth l k)) (j + 1 - scanUp (fun k => c (nth l k)) (j + 1 - i) i) j
        ≤ j ∧
      PartInv c a b (scanUp (fun k => c (nth l k)) (j + 1 - i) i + 1)
        (scanDown (fun k => !c (nth l k)) (j + 1 - scanUp (fun k => c (nth l k)) (j + 1 - i) i) j
          - 1)
        (swap l (scanUp (fun k => c (nth l k)) (j + 1 - i) i)
          (scanDown (fun k => !c (nth l k))
            (j + 1 - scanUp (fun k => c (nth l k)) (j + 1 - i) i) j))) := by
  obtain ⟨hai, hij, hjb, hlen, hleft, hright⟩ := h
  obtain ⟨u1, u2, u3, u4⟩ := scanUp_spec (fun k => c (nth l k)) (j + 1 - i) i
  generalize scanUp (fun k => c (nth l k)) (j + 1 - i) i = i1 at u1 u2 u3 u4 ⊢
  obtain ⟨d1, d2, d3, d4⟩ := scanDown_spec (fun k => !c (nth l k)) (j + 1 - i1) j (by omega)
  generalize scanDown (fun k => !c (nth l k)) (j + 1 - i1) j = j1 at d1 d2 d3 d4 ⊢
  have hleft1 : ∀ k, a + 1 ≤ k → k < i1 → c (nth l k) = true := by
    intro k hk hk2
    by_cases hki : k < i
    · exact hleft k hk hki
    · exact u3 k (by omega) hk2
  have hright1 : ∀ k, j1 < k → k < b → c (nth l k) = false := by
    intro k hk hk2
    by_cases hkj : j < k
    · exact hright k hkj hk2
    · have := d3 k hk (by omega)
      simpa using this
  by_cases hcross : j1 < i1
  · left
    exact ⟨hcross, by omega, by omega, by omega, hlen, hleft1, hright1⟩
  · right
    have hci : c (nth l i1) = false := by
      rcases u4 with u4 | u4
      · omega
      · exact u4
    have hcj : c (nth l j1) = true := by
      rcases d4 with d4 | d4
      · omega
      · simpa using d4
    have hne : i1 ≠ j1 := by
      intro e
      rw [e, hcj] at hci
      exact Bool.noConfusion hci
    have hlt : i1 < j1 := by omega
    refine ⟨hlt, u1, d1, by omega, by omega, by omega, by rw [length_swap]; exact hlen, ?_, ?_⟩
    · intro k hk hk2
      rw [nth_swap l i1 j1 k (by omega) (by omega)]
      by_cases hki : k = i1
      · simp only [hki, show ¬ i1 = j1 from hne, if_true, if_false]
        exact hcj
      · simp only [hki, show ¬ k = j1 by omega, if_false]
        exact hleft1 k hk (by omega)
    · intro k hk hk2
      rw [nth_swap l i1 j1 k (by omega) (by omega)]
      by_cases hkj : k = j1
      · simp only [hkj, if_true]
        exact hci
      · simp only [hkj, show ¬ k = i1 by omega, if_false]
        exact hright1 k (by omega) hk2

theorem partitionLoop_spec {α : Type} [Inhabited α] (less : α → α → Bool) (a b : Nat) (p : α) :
    ∀ (n i j : Nat) (l : List α), PartInv (fun x => less x p) a b i j l → nth l a = p →
      j + 1 - i ≤ n →
      PermOn (a + 1) b l (partitionLoop less a n i j l).1 ∧
        nth (partitionLoop less a n i j l).1 a = p ∧
        PartInv (fun x => less x p) a b ((partitionLoop less a n i j l).2 + 1)
          (partitionLoop less a n i j l).2 (partitionLoop less a n i j l).1 := by
  intro n
  induction n with
  | zero =>
    intro i j l h hp hn
    simp only [partitionLoop]
    have e : i = j + 1 := by
      obtain ⟨_, h2, _⟩ := h
      omega
    exact ⟨PermOn.refl _ _ _, hp, e ▸ h⟩
  | succ n ih =>
    intro i j l h hp hn
    simp only [partitionLoop, hp]
    have hlen : b ≤ l.length := h.2.2.2.1
    have hai : a + 1 ≤ i := h.1
    have hjb : j < b := h.2.2.1
    rcases partition_step (fun x => less x p) a b i j l h with ⟨hcross, hinv⟩ | ⟨hlt, hu, hd, hinv⟩
    · rw [if_pos hcross]
      refine ⟨PermOn.refl _ _ _, hp, ?_⟩
      have e : scanDown (fun k => !less (nth l k) p)
          (j + 1 - scanUp (fun k => less (nth l k) p) (j + 1 - i) i) j + 1 =
          scanUp (fun k => less (nth l k) p) (j + 1 - i) i := by
        obtain ⟨_, h2, _⟩ := hinv
        omega
      simp only []
      rw [e]
      exact hinv
    · rw [if_neg (by omega)]
      generalize scanUp (fun k => less (nth l k) p) (j + 1 - i) i = i1 at hlt hu hd hinv ⊢
      generalize scanDown (fun k => !less (nth l k) p) (j + 1 - i1) j = j1 at hlt hd hinv ⊢
      have hp1 : nth (swap l i1 j1) a = p := by
        rw [nth_swap l i1 j1 a (by omega) (by omega)]
        simp only [show ¬ a = j1 by omega, show ¬ a = i1 by omega, if_false]
        exact hp
      obtain ⟨r1, r2, r3⟩ := ih (i1 + 1) (j1 - 1) (swap l i1 j1) hinv hp1 (by omega)
      exact ⟨(PermOn.swap l i1 j1 (by omega) (by omega) (by omega) (by omega) hlen).trans r1,
        r2, r3⟩

theorem partition_func_spec {α : Type} [Inhabited α] (less : α → α → Bool) (key : α → Int)
    (hless : ∀ x y, less x y = true ↔ key x < key y) (l : List α) (a b pivot : Nat)
    (hap : a ≤ pivot) (hpb : pivot < b) (hb : b ≤ l.length) :
    PermOn a b l (partition_func less l a b pivot).1 ∧
      a ≤ (partition_func less l a b pivot).2.1 ∧ (partition_func less l a b pivot).2.1 < b ∧
      (∀ k, a ≤ k → k < (partition_func less l a b pivot).2.1 →
        key (nth (partition_func less l a b pivot).1 k) <
          key (nth (partition_func less l a b pivot).1 (partition_func less l a b pivot).2.1)) ∧
      (∀ k, (partition_func less l a b pivot).2.1 < k → k < b →
        key (nth (partition_func less l a b pivot).1 (partition_func less l a b pivot).2.1) ≤
          key (nth (partition_func less l a b pivot).1 k)) := by
  -- the state reached by the loop, whatever the path
  have hfinal : ∀ (l2 : List α) (j2 : Nat) (p : α), PermOn a b l l2 → nth l2 a = p →
      PartInv (fun x => less x p) a b (j2 + 1) j2 l2 →
      PermOn a b l (swap l2 j2 a) ∧ a ≤ j2 ∧ j2 < b ∧
        (∀ k, a ≤ k → k < j2 → key (nth (swap l2 j2 a) k) < key (nth (swap l2 j2 a) j2)) ∧
        (∀ k, j2 < k → k < b → key (nth (swap l2 j2 a) j2) ≤ key (nth (swap l2 j2 a) k)) := by
    intro l2 j2 p hperm hp hinv
    obtain ⟨h1, _, h3, h4, h5, h6⟩ := hinv
    have hsw : ∀ k, nth (swap l2 j2 a) k =
        if k = a then nth l2 j2 else if k = j2 then nth l2 a else nth l2 k :=
      fun k => nth_swap l2 j2 a k (by omega) (by omega)
    have hmid : nth (swap l2 j2 a) j2 = p := by
      rw [hsw]
      by_cases hja : j2 = a
      · simp only [hja, if_true]; exact hp
      · simp only [hja, if_true, if_false]; exact hp
    refine ⟨hperm.trans (PermOn.swap l2 j2 a (by omega) h3 (le_refl _) (by omega) h4),
      by omega, h3, ?_, ?_⟩
    · intro k hk hk2
      rw [hmid, hsw k]
      by_cases hka : k = a
      · simp only [hka, if_true]
        exact (hless _ _).mp (h5 j2 (by omega) (by omega))
      · simp only [hka, show ¬ k = j2 by omega, if_false]
        exact (hless _ _).mp (h5 k (by omega) (by omega))
    · intro k hk hk2
      rw [hmid, hsw k]
      simp only [show ¬ k = a by omega, show ¬ k = j2 by omega, if_false]
      have hnl : less (nth l2 k) p = false := h6 k hk hk2
      have hnl' : ¬ less (nth l2 k) p = true := by rw [hnl]; simp
      rw [hless] at hnl'
      omega
  have hl1 : (swap l a pivot).length = l.length := length_swap _ _ _
  have hperm1 : PermOn a b l (swap l a pivot) :=
    PermOn.swap l a pivot (le_refl _) (by omega) hap hpb hb
  have hinv0 : PartInv (fun x => less x (nth (swap l a pivot) a)) a b (a + 1) (b - 1)
      (swap l a pivot) :=
    ⟨le_refl _, by omega, by omega, by rw [hl1]; exact hb, fun k h1 h2 => by omega,
      fun k h1 h2 => by omega⟩
  unfold partition_func
  simp only []
  rcases partition_step _ a b (a + 1) (b - 1) (swap l a pivot) hinv0 with
    ⟨hcross, hinv⟩ | ⟨hlt, hu, hd, hinv⟩
  · rw [if_pos hcross]
    simp only []
    generalize scanUp (fun k => less (nth (swap l a pivot) k) (nth (swap l a pivot) a))
      (b - 1 + 1 - (a + 1)) (a + 1) = i1 at hcross hinv ⊢
    generalize scanDown (fun k => !less (nth (swap l a pivot) k) (nth (swap l a pivot) a))
      (b - 1 + 1 - i1) (b - 1) = j1 at hcross hinv ⊢
    have e : i1 = j1 + 1 := by
      obtain ⟨_, h2, _⟩ := hinv
      omega
    rw [e] at hinv
    exact hfinal _ j1 _ hperm1 rfl hinv
  · rw [if_neg (by omega)]
    simp only []
    generalize scanUp (fun k => less (nth (swap l a pivot) k) (nth (swap l a pivot) a))
      (b - 1 + 1 - (a + 1)) (a + 1) = i1 at hlt hu hd hinv ⊢
    generalize scanDown (fun k => !less (nth (swap l a pivot) k) (nth (swap l a pivot) a))
      (b - 1 + 1 - i1) (b - 1) = j1 at hlt hd hinv ⊢
    have hp1 : nth (swap (swap l a pivot) i1 j1) a = nth (swap l a pivot) a := by
      rw [nth_swap _ i1 j1 a (by omega) (by omega)]
      simp only [show ¬ a = j1 by omega, show ¬ a = i1 by omega, if_false]
    obtain ⟨r1, r2, r3⟩ := partitionLoop_spec less a b (nth (swap l a pivot) a)
      (j1 - 1 + 1 - (i1 + 1)) (i1 + 1) (j1 - 1) _ hinv hp1 (le_refl _)
    have hperm2 : PermOn a b l (swap (swap l a pivot) i1 j1) :=
      hperm1.trans (PermOn.swap _ i1 j1 (by omega) (by omega) (by omega) (by omega)
        (by rw [hl1]; exact hb))
    exact hfinal _ _ _ (hperm2.trans (r1.mono (by omega) (le_refl _))) r2 r3

theorem partitionEqualLoop_spec {α : Type} [Inhabited α] (less : α → α → Bool) (a b : Nat)
    (p : α) :
    ∀ (n i j : Nat) (l : List α), PartInv (fun x => !less p x) a b i j l → nth l a = p →
      j + 1 - i ≤ n →
      PermOn (a + 1) b l (partitionEqualLoop less a n i j l).1 ∧
        nth (partitionEqualLoop less a n i j l).1 a = p ∧
        PartInv (fun x => !less p x) a b (partitionEqualLoop less a n i j l).2
          ((partitionEqualLoop less a n i j l).2 - 1) (partitionEqualLoop less a n i j l).1 := by
  intro n
  induction n with
  | zero =>
    intro i j l h hp hn
    simp only [partitionEqualLoop]
    have e : j = i - 1 := by
      obtain ⟨h1, h2, _⟩ := h
      omega
    exact ⟨PermOn.refl _ _ _, hp, e ▸ h⟩
  | succ n ih =>
    intro i j l h hp hn
    simp only [partitionEqualLoop, hp]
    have hlen : b ≤ l.length := h.2.2.2.1
    have hai : a + 1 ≤ i := h.1
    have hjb : j < b := h.2.2.1
    have hstep := partition_step (fun x => !less p x) a b i j l h
    simp only [Bool.not_not] at hstep
    rcases hstep with ⟨hcross, hinv⟩ | ⟨hlt, hu, hd, hinv⟩
    · rw [if_pos hcross]
      refine ⟨PermOn.refl _ _ _, hp, ?_⟩
      have e : scanDown (fun k => less p (nth l k))
          (j + 1 - scanUp (fun k => !less p (nth l k)) (j + 1 - i) i) j =
          scanUp (fun k => !less p (nth l k)) (j + 1 - i) i - 1 := by
        obtain ⟨_, h2, _⟩ := hinv
        omega
      simp only []
      rw [← e]
      exact hinv
    · rw [if_neg (by omega)]
      generalize scanUp (fun k => !less p (nth l k)) (j + 1 - i) i = i1 at hlt hu hd hinv ⊢
      generalize scanDown (fun k => less p (nth l k)) (j + 1 - i1) j = j1 at hlt hd hinv ⊢
      have hp1 : nth (swap l i1 j1) a = p := by
        rw [nth_swap l i1 j1 a (by omega) (by omega)]
        simp only [show ¬ a = j1 by omega, show ¬ a = i1 by omega, if_false]
        exact hp
      obtain ⟨r1, r2, r3⟩ := ih (i1 + 1) (j1 - 1) (swap l i1 j1) hinv hp1 (by omega)
      exact ⟨(PermOn.swap l i1 j1 (by omega) (by omega) (by omega) (by omega) hlen).trans r1,
        r2, r3⟩

theorem partitionEqual_func_spec {α : Type} [Inhabited α] (less : α → α → Bool) (key : α → Int)
    (hless : ∀ x y, less x y = true ↔ key x < key y) (l : List α) (a b pivot : Nat)
    (hap : a ≤ pivot) (hpb : pivot < b) (hb : b ≤ l.length)
    (hmin : ∀ k, a ≤ k → k < b → key (nth l pivot) ≤ key (nth l k)) :
    PermOn a b l (partitionEqual_func less l a b pivot).1 ∧
      a + 1 ≤ (partitionEqual_func less l a b pivot).2 ∧
      (partitionEqual_func less l a b pivot).2 ≤ b ∧
      (∀ k, a ≤ k → k < (partitionEqual_func less l a b pivot).2 →
        key (nth (partitionEqual_func less l a b pivot).1 k) = key (nth l pivot)) ∧
      (∀ k, (partitionEqual_func less l a b pivot).2 ≤ k → k < b →
        key (nth l pivot) < key (nth (partitionEqual_func less l a b pivot).1 k)) := by
  have hl1 : (swap l a pivot).length = l.length := length_swap _ _ _
  have hperm1 : PermOn a b l (swap l a pivot) :=
    PermOn.swap l a pivot (le_refl _) (by omega) hap hpb hb
  have hpv : nth (swap l a pivot) a = nth l pivot := by
    rw [nth_swap l a pivot a (by omega) (by omega)]
    by_cases h : a = pivot
    · simp [h]
    · simp [h]
  have hinv0 : PartInv (fun x => !less (nth l pivot) x) a b (a + 1) (b - 1) (swap l a pivot) :=
    ⟨le_refl _, by omega, by omega, by rw [hl1]; exact hb, fun k h1 h2 => by omega,
      fun k h1 h2 => by omega⟩
  obtain ⟨r1, r2, r3⟩ := partitionEqualLoop_spec less a b (nth l pivot)
    (b - 1 + 1 - (a + 1)) (a + 1) (b - 1) _ hinv0 hpv (le_refl _)
  unfold partitionEqual_func
  generalize partitionEqualLoop less a (b - 1 + 1 - (a + 1)) (a + 1) (b - 1) (swap l a pivot)
    = r at r1 r2 r3 ⊢
  obtain ⟨h1, h2, h3, h4, h5, h6⟩ := r3
  have hperm : PermOn a b l r.1 := hperm1.trans (r1.mono (by omega) (le_refl _))
  have hmin' := hperm.forall (fun x => key (nth l pivot) ≤ key x) hmin
  refine ⟨hperm, h1, by omega, ?_, ?_⟩
  · intro k hk hk2
    by_cases hka : k = a
    · rw [hka, r2]
    · have hc : (!less (nth l pivot) (nth r.1 k)) = true := h5 k (by omega) hk2
      have hnl : ¬ less (nth l pivot) (nth r.1 k) = true := by
        intro e
        simp [e] at hc
      rw [hless] at hnl
      have : key (nth l pivot) ≤ key (nth r.1 k) := hmin' k hk (by omega)
      omega
  · intro k hk hk2
    have hc : (!less (nth l pivot) (nth r.1 k)) = false := h6 k (by omega) hk2
    have hl : less (nth l pivot) (nth r.1 k) = true := by simpa using hc
    exact (hless _ _).mp hl

/-! ## The partial insertion sort -/

theorem SortedOn.of_adjacent {α : Type} [Inhabited α] {key : α → Int} {l : List α} {a b : Nat}
    (h : ∀ k, a < k → k < b → key (nth l (k - 1)) ≤ key (nth l k)) : SortedOn key l a b := by
  intro i j hi hij hj
  induction j with
  | zero => omega
  | succ j ih =>
    have h1 := h (j + 1) (by omega) hj
    simp only [Nat.add_sub_cancel] at h1
    by_cases hij2 : i = j
    · rw [hij2]; exact h1
    · have := ih (by omega) (by omega)
      omega

theorem LowerBound.of_permOn {α : Type} [Inhabited α] {key : α → Int} {l l' : List α}
    {a b : Nat} (h : LowerBound key l a b) (hp : PermOn a b l l') : LowerBound key l' a b := by
  intro ha
  rw [hp.frame (a - 1) (Or.inl (by omega))]
  exact hp.forall (fun x => key (nth l (a - 1)) ≤ key x) (h ha)

theorem SortedOn.of_frame {α : Type} [Inhabited α] {key : α → Int} {l l' : List α}
    {a b : Nat} (h : SortedOn key l a b) (hf : ∀ k, a ≤ k → k < b → nth l' k = nth l k) :
    SortedOn key l' a b := by
  intro i j hi hij hj
  rw [hf i hi (by omega), hf j (by omega) hj]
  exact h i j hi hij hj

theorem shiftRight_spec {α : Type} [Inhabited α] (less : α → α → Bool) (lo b : Nat) :
    ∀ (n j : Nat) (l : List α), lo + 1 ≤ j → j + n ≤ b → b ≤ l.length →
      PermOn lo b l (shiftRight less n j l) := by
  intro n
  induction n with
  | zero => intro j l _ _ _; exact PermOn.refl _ _ _
  | succ n ih =>
    intro j l hj hjn hb
    simp only [shiftRight]
    split
    · exact PermOn.refl _ _ _
    · exact (PermOn.swap l j (j - 1) (by omega) (by omega) (by omega) (by omega) hb).trans
        (ih (j + 1) _ (by omega) (by omega) (by rw [length_swap]; exact hb))

theorem partialInsertionLoop_spec {α : Type} [Inhabited α] (less : α → α → Bool)
    (key : α → Int) (hless : ∀ x y, less x y = true ↔ key x < key y) (a b : Nat) :
    ∀ (steps i : Nat) (l : List α), a + 1 ≤ i → i ≤ b → b ≤ l.length → SortedOn key l a i →
      LowerBound key l a b →
      PermOn a b l (partialInsertionLoop less a b steps i l).1 ∧
        ((partialInsertionLoop less a b steps i l).2 = true →
          SortedOn key (partialInsertionLoop less a b steps i l).1 a b) := by
  intro steps
  induction steps with
  | zero =>
    intro i l _ _ _ _ _
    simp only [partialInsertionLoop]
    exact ⟨PermOn.refl _ _ _, fun h => Bool.noConfusion h⟩
  | succ steps ih =>
    intro i l hai hib hb hs hlow
    simp only [partialInsertionLoop]
    obtain ⟨u1, u2, u3, u4⟩ :=
      scanUp_spec (fun k => !less (nth l k) (nth l (k - 1))) (b - i) i
    generalize scanUp (fun k => !less (nth l k) (nth l (k - 1))) (b - i) i = i1 at u1 u2 u3 u4 ⊢
    have hs1 : SortedOn key l a i1 := by
      apply SortedOn.of_adjacent
      intro k hk hk2
      by_cases hki : k < i
      · exact hs (k - 1) k (by omega) (by omega) hki
      · have := u3 k (by omega) hk2
        have hnl : ¬ less (nth l k) (nth l (k - 1)) = true := by
          intro e
          simp [e] at this
        rw [hless] at hnl
        omega
    split
    · rename_i hend
      exact ⟨PermOn.refl _ _ _, fun _ => hend ▸ hs1⟩
    · rename_i hend
      split
      · exact ⟨PermOn.refl _ _ _, fun h => Bool.noConfusion h⟩
      · have hi1b : i1 < b := by omega
        have hsw : ∀ k, nth (swap l i1 (i1 - 1)) k =
            if k = i1 - 1 then nth l i1 else if k = i1 then nth l (i1 - 1) else nth l k :=
          fun k => nth_swap l i1 (i1 - 1) k (by omega) (by omega)
        have hp1 : PermOn a b l (swap l i1 (i1 - 1)) :=
          PermOn.swap l i1 (i1 - 1) (by omega) hi1b (by omega) (by omega) hb
        have hlen1 : (swap l i1 (i1 - 1)).length = l.length := length_swap _ _ _
        have hlow1 : LowerBound key (swap l i1 (i1 - 1)) a b := hlow.of_permOn hp1
        have hs0 : SortedOn key (swap l i1 (i1 - 1)) a (i1 - 1) := by
          intro x y hx hxy hy
          rw [hsw x, hsw y]
          simp only [show ¬ x = i1 - 1 by omega, show ¬ x = i1 by omega,
            show ¬ y = i1 - 1 by omega, show ¬ y = i1 by omega, if_false]
          exact hs1 x y hx hxy (by omega)
        -- the shift to the left
        obtain ⟨l2, hl2, hp2, hs2⟩ : ∃ l2,
            (if i1 - a ≥ 2 then insertionInner less 0 (i1 - 1) (swap l i1 (i1 - 1))
              else swap l i1 (i1 - 1)) = l2 ∧
            PermOn a b (swap l i1 (i1 - 1)) l2 ∧ SortedOn key l2 a i1 := by
          split
          · rename_i h2
            have heq : insertionInner less 0 (i1 - 1) (swap l i1 (i1 - 1)) =
                insertionInner less a (i1 - 1) (swap l i1 (i1 - 1)) := by
              rcases Nat.eq_zero_or_pos a with ha | ha
              · rw [ha]
              · exact insertionInner_zero_eq less key hless a ha (i1 - 1) _ (by omega)
                  (by rw [hlen1]; omega) (hlow1 ha (i1 - 1) (by omega) (by omega))
            obtain ⟨q1, q2⟩ := insertionInner_spec less key hless a (i1 - 1) _ (by omega)
              (by rw [hlen1]; omega) hs0
            have e : i1 - 1 + 1 = i1 := by omega
            rw [e] at q1 q2
            exact ⟨_, rfl, heq ▸ q1.mono (le_refl _) (by omega), heq ▸ q2⟩
          · rename_i h2
            refine ⟨_, rfl, PermOn.refl _ _ _, ?_⟩
            intro x y hx hxy hy
            omega
        rw [hl2]
        have hlen2 : l2.length = l.length := by rw [hp2.length_eq, hlen1]
        -- the shift to the right
        obtain ⟨l3, hl3, hp3⟩ : ∃ l3,
            (if b - i1 ≥ 2 then shiftRight less (b - (i1 + 1)) (i1 + 1) l2 else l2) = l3 ∧
            PermOn i1 b l2 l3 := by
          split
          · exact ⟨_, rfl, shiftRight_spec less i1 b _ _ l2 (le_refl _) (by omega)
              (by rw [hlen2]; exact hb)⟩
          · exact ⟨_, rfl, PermOn.refl _ _ _⟩
        rw [hl3]
        have hperm : PermOn a b l l3 := (hp1.trans hp2).trans (hp3.mono (by omega) (le_refl _))
        have hs3 : SortedOn key l3 a i1 :=
          hs2.of_frame (fun k _ hk2 => hp3.frame k (Or.inl hk2))
        obtain ⟨r1, r2⟩ := ih i1 l3 (by omega) (by omega) (by rw [hperm.length_eq]; exact hb)
          hs3 (hlow.of_permOn hperm)
        exact ⟨hperm.trans r1, r2⟩

theorem partialInsertionSort_func_spec {α : Type} [Inhabited α] (less : α → α → Bool)
    (key : α → Int) (hless : ∀ x y, less x y = true ↔ key x < key y) (l : List α) (a b : Nat)
    (hab : a < b) (hb : b ≤ l.length) (hlow : LowerBound key l a b) :
    PermOn a b l (partialInsertionSort_func less l a b).1 ∧
      ((partialInsertionSort_func less l a b).2 = true →
        SortedOn key (partialInsertionSort_func less l a b).1 a b) :=
  partialInsertionLoop_spec less key hless a b 5 (a + 1) l (le_refl _) hab hb
    (fun i j hi hij hj => by omega) hlow

/-! ## Choice of the pivot, reversal, pattern breaking -/

theorem order2_func_mem {α : Type} [Inhabited α] (less : α → α → Bool) (l : List α)
    (x y s : Nat) :
    ((order2_func less l x y s).1 = x ∧ (order2_func less l x y s).2.1 = y) ∨
      ((order2_func less l x y s).1 = y ∧ (order2_func less l x y s).2.1 = x) := by
  unfold order2_func
  split
  · right; exact ⟨rfl, rfl⟩
  · left; exact ⟨rfl, rfl⟩

theorem median_func_mem {α : Type} [Inhabited α] (less : α → α → Bool) (l : List α)
    (x y z s : Nat) :
    (median_func less l x y z s).1 = x ∨ (median_func less l x y z s).1 = y ∨
      (median_func less l x y z s).1 = z := by
  unfold median_func order2_func
  simp only []
  split_ifs <;> simp

theorem medianAdjacent_func_mem {α : Type} [Inhabited α] (less : α → α → Bool) (l : List α)
    (x s : Nat) :
    (medianAdjacent_func less l x s).1 = x - 1 ∨ (medianAdjacent_func less l x s).1 = x ∨
      (medianAdjacent_func less l x s).1 = x + 1 :=
  median_func_mem less l (x - 1) x (x + 1) s

/-- The pivot chosen lies in the range. -/
theorem choosePivot_func_range {α : Type} [Inhabited α] (less : α → α → Bool) (l : List α)
    (a b : Nat) (hab : a < b) :
    a ≤ (choosePivot_func less l a b).1 ∧ (choosePivot_func less l a b).1 < b := by
  have hfst : ∀ r : Nat × Nat, (if r.2 = 0 then (r.1, sortedHint.increasingHint)
      else if r.2 = 12 then (r.1, sortedHint.decreasingHint)
      else (r.1, sortedHint.unknownHint)).1 = r.1 := by
    intro r
    split_ifs <;> rfl
  unfold choosePivot_func
  simp only [hfst]
  split
  · rename_i h8
    split
    · rename_i h50
      have hi := medianAdjacent_func_mem less l (a + (b - a) / 4 * 1) 0
      have hj := medianAdjacent_func_mem less l (a + (b - a) / 4 * 2)
        (medianAdjacent_func less l (a + (b - a) / 4 * 1) 0).2
      have hk := medianAdjacent_func_mem less l (a + (b - a) / 4 * 3)
        (medianAdjacent_func less l (a + (b - a) / 4 * 2)
          (medianAdjacent_func less l (a + (b - a) / 4 * 1) 0).2).2
      have hm := median_func_mem less l
        (medianAdjacent_func less l (a + (b - a) / 4 * 1) 0).1
        (medianAdjacent_func less l (a + (b - a) / 4 * 2)
          (medianAdjacent_func less l (a + (b - a) / 4 * 1) 0).2).1
        (medianAdjacent_func less l (a + (b - a) / 4 * 3)
          (medianAdjacent_func less l (a + (b - a) / 4 * 2)
            (medianAdjacent_func less l (a + (b - a) / 4 * 1) 0).2).2).1
        (medianAdjacent_func less l (a + (b - a) / 4 * 3)
          (medianAdjacent_func less l (a + (b - a) / 4 * 2)
            (medianAdjacent_func less l (a + (b - a) / 4 * 1) 0).2).2).2
      omega
    · have hm := median_func_mem less l (a + (b - a) / 4 * 1) (a + (b - a) / 4 * 2)
        (a + (b - a) / 4 * 3) 0
      omega
  · simp only []
    omega

theorem reverseLoop_spec {α : Type} [Inhabited α] (a b : Nat) :
    ∀ (n i j : Nat) (l : List α), a ≤ i → j < b → b ≤ l.length →
      PermOn a b l (reverseLoop n i j l) := by
  intro n
  induction n with
  | zero => intro i j l _ _ _; exact PermOn.refl _ _ _
  | succ n ih =>
    intro i j l hi hj hb
    simp only [reverseLoop]
    split
    · exact (PermOn.swap l i j hi (by omega) (by omega) hj hb).trans
        (ih (i + 1) (j - 1) _ (by omega) (by omega) (by rw [length_swap]; exact hb))
    · exact PermOn.refl _ _ _

theorem reverseRange_func_spec {α : Type} [Inhabited α] (l : List α) (a b : Nat) (hab : a < b)
    (hb : b ≤ l.length) : PermOn a b l (reverseRange_func l a b) :=
  reverseLoop_spec a b (b - a) a (b - 1) l (le_refl _) (by omega) hb

theorem nextPowerOfTwo_le (length : Nat) (h : 0 < length) :
    nextPowerOfTwo length ≤ 2 * length := by
  unfold nextPowerOfTwo bitsLen
  rw [if_neg (by omega), pow_succ]
  have := @Nat.log2_self_le length (by omega)
  omega

theorem breakPatternsLoop_spec {α : Type} [Inhabited α] (a b idx modulus : Nat)
    (hlen : 0 < b - a) (hmod : modulus ≤ 2 * (b - a)) (hmod1 : 0 < modulus) :
    ∀ (n i random : Nat) (l : List α), a ≤ idx - 1 + i → idx - 1 + i + n ≤ b →
      b ≤ l.length →
      PermOn a b l (breakPatternsLoop a (b - a) idx modulus n i random l) := by
  intro n
  induction n with
  | zero => intro i random l _ _ _; exact PermOn.refl _ _ _
  | succ n ih =>
    intro i random l hi hin hb
    simp only [breakPatternsLoop]
    have hand : xorshiftNext random &&& (modulus - 1) ≤ modulus - 1 := Nat.and_le_right
    have hother : (if xorshiftNext random &&& (modulus - 1) ≥ b - a then
        (xorshiftNext random &&& (modulus - 1)) - (b - a)
        else xorshiftNext random &&& (modulus - 1)) < b - a := by
      split <;> omega
    exact (PermOn.swap l _ _ hi (by omega) (by omega) (by omega) hb).trans
      (ih (i + 1) _ _ (by omega) (by omega) (by rw [length_swap]; exact hb))

theorem breakPatterns_func_spec {α : Type} [Inhabited α] (l : List α) (a b : Nat)
    (hb : b ≤ l.length) : PermOn a b l (breakPatterns_func l a b) := by
  unfold breakPatterns_func
  simp only []
  split
  · rename_i h8
    have hpow := nextPowerOfTwo_le (b - a) (by omega)
    have hpos : 0 < nextPowerOfTwo (b - a) := by
      unfold nextPowerOfTwo
      exact Nat.pos_pow_of_pos _ (by omega)
    exact breakPatternsLoop_spec a b _ _ (by omega) hpow hpos 3 0 (b - a) l (by omega)
      (by omega) hb
  · exact PermOn.refl _ _ _

/-! ## The pattern-defeating quicksort -/

theorem SortedOn.of_parts {α : Type} [Inhabited α] {key : α → Int} {l : List α}
    {a b : Nat} (mid : Nat) (h1 : SortedOn key l a mid) (h2 : SortedOn key l (mid + 1) b)
    (hl : ∀ x, a ≤ x → x < mid → key (nth l x) ≤ key (nth l mid))
    (hr : ∀ y, mid < y → y < b → key (nth l mid) ≤ key (nth l y)) : SortedOn key l a b := by
  intro x y hx hxy hy
  by_cases hym : y < mid
  · exact h1 x y hx hxy hym
  · by_cases hxm : mid < x
    · exact h2 x y (by omega) hxy hy
    · by_cases hye : y = mid
      · rw [hye]; exact hl x hx (by omega)
      · by_cases hxe : x = mid
        · rw [hxe]; exact hr y (by omega) hy
        · have := hl x hx (by omega)
          have := hr y (by omega) hy
          omega

set_option maxHeartbeats 2000000 in
theorem pdqsortLoop_spec {α : Type} [Inhabited α] (less : α → α → Bool) (key : α → Int)
    (hless : ∀ x y, less x y = true ↔ key x < key y) :
    ∀ (fuel : Nat) (l : List α) (a b limit : Nat) (wasBalanced wasPartitioned : Bool),
      a ≤ b → b ≤ l.length → b - a < fuel → LowerBound key l a b →
      PermOn a b l (pdqsortLoop less fuel l a b limit wasBalanced wasPartitioned) ∧
        SortedOn key (pdqsortLoop less fuel l a b limit wasBalanced wasPartitioned) a b := by
  intro fuel
  induction fuel with
  | zero => intro l a b limit wb wp _ _ h _; omega
  | succ fuel ih =>
    intro l a b limit wb wp hab hb hfuel hlow
    rw [pdqsortLoop]
    dsimp only
    split
    · exact insertionSort_func_spec less key hless l a b hb
    · rename_i hlen
      split
      · exact heapSort_func_spec less key hless l a b hab hb
      · have hab' : a < b := by omega
        -- the patterns are broken after an unbalanced partition
        obtain ⟨data1, hd1, hp1⟩ : ∃ data1,
            (if wb = true then l else breakPatterns_func l a b) = data1 ∧ PermOn a b l data1 := by
          split
          · exact ⟨_, rfl, PermOn.refl _ _ _⟩
          · exact ⟨_, rfl, breakPatterns_func_spec l a b hb⟩
        rw [hd1]
        generalize (if wb = true then limit else limit - 1) = limit1
        have hb1 : b ≤ data1.length := by rw [hp1.length_eq]; exact hb
        have hchosen := choosePivot_func_range less data1 a b hab'
        generalize choosePivot_func less data1 a b = chosen at hchosen ⊢
        obtain ⟨data2, hd2, hp2⟩ : ∃ data2,
            (if chosen.2 = sortedHint.decreasingHint then reverseRange_func data1 a b
              else data1) = data2 ∧ PermOn a b l data2 := by
          split
          · exact ⟨_, rfl, hp1.trans (reverseRange_func_spec data1 a b hab' hb1)⟩
          · exact ⟨_, rfl, hp1⟩
        rw [hd2]
        obtain ⟨pivot, hpv, hpa, hpb⟩ : ∃ pivot,
            (if chosen.2 = sortedHint.decreasingHint then b - 1 - (chosen.1 - a)
              else chosen.1) = pivot ∧ a ≤ pivot ∧ pivot < b := by
          split
          · exact ⟨_, rfl, by omega, by omega⟩
          · exact ⟨_, rfl, hchosen.1, hchosen.2⟩
        rw [hpv]
        generalize (if chosen.2 = sortedHint.decreasingHint then sortedHint.increasingHint
          else chosen.2) = hint
        generalize (wb && wp && decide (hint = sortedHint.increasingHint)) = tryPartial
        have hb2 : b ≤ data2.length := by rw [hp2.length_eq]; exact hb
        obtain ⟨hpp, hps⟩ := partialInsertionSort_func_spec less key hless data2 a b hab' hb2
          (hlow.of_permOn hp2)
        generalize partialInsertionSort_func less data2 a b = partial1 at hpp hps ⊢
        split
        · rename_i hdone
          simp only [Bool.and_eq_true] at hdone
          exact ⟨hp2.trans hpp, hps hdone.2⟩
        · obtain ⟨data3, hd3, hp3⟩ : ∃ data3,
              (if tryPartial = true then partial1.1 else data2) = data3 ∧ PermOn a b l data3 := by
            split
            · exact ⟨_, rfl, hp2.trans hpp⟩
            · exact ⟨_, rfl, hp2⟩
          rw [hd3]
          have hb3 : b ≤ data3.length := by rw [hp3.length_eq]; exact hb
          have hlow3 : LowerBound key data3 a b := hlow.of_permOn hp3
          split
          · -- the elements equal to the pivot are put first
            rename_i heq
            obtain ⟨ha0, hnl⟩ := heq
            have hnl' : ¬ less (nth data3 (a - 1)) (nth data3 pivot) = true := by
              rw [hnl]; simp
            rw [hless] at hnl'
            have hmin : ∀ k, a ≤ k → k < b → key (nth data3 pivot) ≤ key (nth data3 k) := by
              intro k hk hk2
              have := hlow3 ha0 k hk hk2
              omega
            obtain ⟨q1, q2, q3, q4, q5⟩ :=
              partitionEqual_func_spec less key hless data3 a b pivot hpa hpb hb3 hmin
            generalize partitionEqual_func less data3 a b pivot = r at q1 q2 q3 q4 q5 ⊢
            have hbr : b ≤ r.1.length := by rw [q1.length_eq]; exact hb3
            obtain ⟨s1, s2⟩ := ih r.1 r.2 b limit1 wb wp q3 hbr (by omega)
              (by
                intro _ k hk hk2
                rw [q4 (r.2 - 1) (by omega) (by omega)]
                exact le_of_lt (q5 k hk hk2))
            refine ⟨(hp3.trans q1).trans (s1.mono (by omega) (le_refl _)), ?_⟩
            intro x y hx hxy hy
            by_cases hxm : r.2 ≤ x
            · exact s2 x y hxm hxy hy
            · rw [s1.frame x (Or.inl (by omega)), q4 x hx (by omega)]
              by_cases hym : r.2 ≤ y
              · have := s1.forall (fun z => key (nth data3 pivot) < key z) q5 y hym hy
                exact le_of_lt this
              · rw [s1.frame y (Or.inl (by omega)), q4 y (by omega) (by omega)]
          · obtain ⟨q1, q2, q3, q4, q5⟩ :=
              partition_func_spec less key hless data3 a b pivot hpa hpb hb3
            generalize partition_func less data3 a b pivot = r at q1 q2 q3 q4 q5 ⊢
            have hbr : b ≤ r.1.length := by rw [q1.length_eq]; exact hb3
            have hlowr : LowerBound key r.1 a b := hlow3.of_permOn q1
            split
            · -- the left part is sorted by the call, the right part by the loop
              obtain ⟨s1, s2⟩ := ih r.1 a r.2.1 limit1 true true q2 (by omega) (by omega)
                (fun ha k hk hk2 => hlowr ha k hk (by omega))
              generalize pdqsortLoop less fuel r.1 a r.2.1 limit1 true true = l4 at s1 s2 ⊢
              have hb4 : b ≤ l4.length := by rw [s1.length_eq]; exact hbr
              have hmid4 : nth l4 r.2.1 = nth r.1 r.2.1 := s1.frame _ (Or.inr (le_refl _))
              have hleft4 : ∀ x, a ≤ x → x < r.2.1 → key (nth l4 x) < key (nth r.1 r.2.1) :=
                s1.forall (fun z => key z < key (nth r.1 r.2.1)) q4
              have hright4 : ∀ y, r.2.1 < y → y < b → key (nth r.1 r.2.1) ≤ key (nth l4 y) := by
                intro y hy hy2
                rw [s1.frame y (Or.inr (by omega))]
                exact q5 y hy hy2
              obtain ⟨t1, t2⟩ := ih l4 (r.2.1 + 1) b limit1
                (decide (r.2.1 - a ≥ (b - a) / 8)) r.2.2 (by omega) hb4 (by omega)
                (by
                  intro _ k hk hk2
                  simp only [Nat.add_sub_cancel]
                  rw [hmid4]
                  exact hright4 k (by omega) hk2)
              generalize pdqsortLoop less fuel l4 (r.2.1 + 1) b limit1
                (decide (r.2.1 - a ≥ (b - a) / 8)) r.2.2 = l5 at t1 t2 ⊢
              refine ⟨((hp3.trans q1).trans (s1.mono (le_refl _) (by omega))).trans
                (t1.mono (by omega) (le_refl _)), ?_⟩
              have hmid5 : nth l5 r.2.1 = nth r.1 r.2.1 := by
                rw [t1.frame _ (Or.inl (by omega)), hmid4]
              apply SortedOn.of_parts r.2.1
              · exact s2.of_frame (fun k _ hk2 => t1.frame k (Or.inl (by omega)))
              · exact t2
              · intro x hx hx2
                rw [hmid5, t1.frame x (Or.inl (by omega))]
                exact le_of_lt (hleft4 x hx hx2)
              · intro y hy hy2
                rw [hmid5]
                exact t1.forall (fun z => key (nth r.1 r.2.1) ≤ key z)
                  (fun k hk hk2 => hright4 k (by omega) hk2) y (by omega) hy2
            · -- the right part is sorted by the call, the left part by the loop
              obtain ⟨s1, s2⟩ := ih r.1 (r.2.1 + 1) b limit1 true true (by omega) hbr (by omega)
                (by
                  intro _ k hk hk2
                  simp only [Nat.add_sub_cancel]
                  exact q5 k (by omega) hk2)
              generalize pdqsortLoop less fuel r.1 (r.2.1 + 1) b limit1 true true = l4
                at s1 s2 ⊢
              have hb4 : b ≤ l4.length := by rw [s1.length_eq]; exact hbr
              have hmid4 : nth l4 r.2.1 = nth r.1 r.2.1 := s1.frame _ (Or.inl (by omega))
              have hright4 : ∀ y, r.2.1 < y → y < b → key (nth r.1 r.2.1) ≤ key (nth l4 y) :=
                fun y hy hy2 => s1.forall (fun z => key (nth r.1 r.2.1) ≤ key z)
                  (fun k hk hk2 => q5 k (by omega) hk2) y (by omega) hy2
              have hleft4 : ∀ x, a ≤ x → x < r.2.1 → key (nth l4 x) < key (nth r.1 r.2.1) := by
                intro x hx hx2
                rw [s1.frame x (Or.inl (by omega))]
                exact q4 x hx hx2
              obtain ⟨t1, t2⟩ := ih l4 a r.2.1 limit1
                (decide (b - r.2.1 ≥ (b - a) / 8)) r.2.2 q2 (by omega) (by omega)
                (by
                  intro ha k hk hk2
                  rw [s1.frame (a - 1) (Or.inl (by omega)), s1.frame k (Or.inl (by omega))]
                  exact hlowr ha k hk (by omega))
              generalize pdqsortLoop less fuel l4 a r.2.1 limit1
                (decide (b - r.2.1 ≥ (b - a) / 8)) r.2.2 = l5 at t1 t2 ⊢
              refine ⟨((hp3.trans q1).trans (s1.mono (by omega) (le_refl _))).trans
                (t1.mono (le_refl _) (by omega)), ?_⟩
              have hmid5 : nth l5 r.2.1 = nth r.1 r.2.1 := by
                rw [t1.frame _ (Or.inr (le_refl _)), hmid4]
              apply SortedOn.of_parts r.2.1
              · exact t2
              · exact s2.of_frame (fun k _ hk2 => t1.frame k (Or.inr (by omega)))
              · intro x hx hx2
                rw [hmid5]
                exact le_of_lt (t1.forall (fun z => key z < key (nth r.1 r.2.1)) hleft4 x hx hx2)
              · intro y hy hy2
                rw [hmid5, t1.frame y (Or.inr (by omega))]
                exact hright4 y hy hy2

theorem nth_eq_getElem {α : Type} [Inhabited α] (l : List α) (k : Nat) (h : k < l.length) :
    nth l k = l[k] := by
  simp [nth, List.getD_eq_getElem?_getD, List.getElem?_eq_getElem h]

theorem pdqsort_func_spec {α : Type} [Inhabited α] (less : α → α → Bool) (key : α → Int)
    (hless : ∀ x y, less x y = true ↔ key x < key y) (l : List α) (limit : Nat) :
    PermOn 0 l.length l (pdqsort_func less l 0 l.length limit) ∧
      SortedOn key (pdqsort_func less l 0 l.length limit) 0 l.length :=
  pdqsortLoop_spec less key hless _ l 0 l.length limit true true (Nat.zero_le _) (le_refl _)
    (by omega) (fun h => by omega)

theorem sortSlice_perm {α : Type} [Inhabited α] (less : α → α → Bool) (key : α → Int)
    (hless : ∀ x y, less x y = true ↔ key x < key y) (l : List α) :
    (sortSlice less l).Perm l :=
  (pdqsort_func_spec less key hless l _).1.perm (le_refl _)

theorem sortSlice_pairwise {α : Type} [Inhabited α] (less : α → α → Bool) (key : α → Int)
    (hless : ∀ x y, less x y = true ↔ key x < key y) (l : List α) :
    (sortSlice less l).Pairwise fun u v => key u ≤ key v := by
  obtain ⟨hp, hs⟩ := pdqsort_func_spec less key hless l (bitsLen l.length)
  have hlen : (sortSlice less l).length = l.length := hp.length_eq
  rw [List.pairwise_iff_getElem]
  intro i j hi hj hij
  have h := hs i j (Nat.zero_le _) hij (by rw [← hlen]; exact hj)
  have e : ∀ (k : Nat) (hk : k < (sortSlice less l).length),
      nth (pdqsort_func less l 0 l.length (bitsLen l.length)) k = (sortSlice less l)[k] :=
    fun k hk => nth_eq_getElem (sortSlice less l) k hk
  rw [e i hi, e j hj] at h
  exact h

theorem cveLess_iff (intSize : Nat) (reverseSort : Bool) (ci cj : CVE) :
    cveLess intSize reverseSort ci cj = true ↔
      if reverseSort then sortKey intSize ci.Name > sortKey intSize cj.Name
      else sortKey intSize ci.Name < sortKey intSize cj.Name := by
  cases reverseSort <;> simp [cveLess]

theorem sortCVEs_pairwise (intSize : Nat) (reverseSort : Bool) (cveList : List CVE) :
    (sortCVEs intSize reverseSort cveList).Pairwise fun earlier later =>
      if reverseSort then sortKey intSize earlier.Name ≥ sortKey intSize later.Name
      else sortKey intSize earlier.Name ≤ sortKey intSize later.Name := by
  cases reverseSort with
  | false =>
    simpa [sortCVEs] using sortSlice_pairwise (cveLess intSize false)
      (fun c => sortKey intSize c.Name)
      (fun x y => by simpa using cveLess_iff intSize false x y) cveList
  | true =>
    have h := sortSlice_pairwise (cveLess intSize true) (fun c => -sortKey intSize c.Name)
      (fun x y => by
        have := cveLess_iff intSize true x y
        simp only [if_true] at this
        rw [this]; show _ ↔ -sortKey intSize x.Name < -sortKey intSize y.Name
        constructor <;> intro h <;> omega) cveList
    refine h.imp (fun hab => ?_)
    simp only [if_true]
    omega

/-- Any arrangement that is sorted for the comparator of `getCVEs` in the sense of
package `sort` (no later element is less than an earlier one) is in key order. -/
theorem key_order_of_sorted (intSize : Nat) (reverseSort : Bool) (out : List CVE)
    (h : out.Pairwise fun earlier later => cveLess intSize reverseSort later earlier = false) :
    out.Chain' (fun earlier later =>
      if reverseSort then sortKey intSize earlier.Name ≥ sortKey intSize later.Name
      else sortKey intSize earlier.Name ≤ sortKey intSize later.Name) := by
  refine (h.imp ?_).chain'
  intro a b hab
  have hiff := cveLess_iff intSize reverseSort b a
  rw [hab] at hiff
  cases reverseSort
  · simp only [Bool.false_eq_true, if_false, false_iff, not_lt] at hiff ⊢
    exact hiff
  · simp only [if_true, Bool.false_eq_true, false_iff, gt_iff_lt, not_lt, ge_iff_le] at hiff ⊢
    exact hiff

theorem sortCVEs_perm (intSize : Nat) (reverseSort : Bool) (cveList : List CVE) :
    (sortCVEs intSize reverseSort cveList).Perm cveList := by
  cases reverseSort with
  | false =>
    exact sortSlice_perm (cveLess intSize false) (fun c => sortKey intSize c.Name)
      (fun x y => by simpa using cveLess_iff intSize false x y) cveList
  | true =>
    exact sortSlice_perm (cveLess intSize true) (fun c => -sortKey intSize c.Name)
      (fun x y => by
        have := cveLess_iff intSize true x y
        simp only [if_true] at this
        rw [this]; show _ ↔ -sortKey intSize x.Name < -sortKey intSize y.Name
        constructor <;> intro h <;> omega) cveList

set_option maxRecDepth 100000 in
/-- C2: sort invariant of the sort step of `getCVEs`. The sorted list is a
rearrangement of the input in which every adjacent pair is in key order:
ascending when the reverse flag is false, descending when it is true. In the
`log4j` scenario `CVE-2021-44228` comes before `CVE-2021-45046` ascending and
after it with the reverse flag. On thirteen records, which are more than the
insertion sort takes, the keys come out in order and records of equal key do
not keep their input order. -/
theorem sortCVEs_sort_invariant (intSize : Nat) (reverseSort : Bool) (cveList : List CVE) :
    (sortCVEs intSize reverseSort cveList).Perm cveList ∧
    (sortCVEs intSize reverseSort cveList).Chain' (fun earlier later =>
      if reverseSort then sortKey intSize earlier.Name ≥ sortKey intSize later.Name
      else sortKey intSize earlier.Name ≤ sortKey intSize later.Name) ∧
    (sortCVEs 64 false log4jRows).map CVE.Name = [ascii "CVE-2021-44228", ascii "CVE-2021-45046"] ∧
    (sortCVEs 64 true log4jRows).map CVE.Name = [ascii "CVE-2021-45046", ascii "CVE-2021-44228"] ∧
    (sortCVEs 64 false thirteenRows).map CVE.Description =
      [ascii "d10", ascii "d00", ascii "d05", ascii "d01", ascii "d06", ascii "d11", ascii "d02",
        ascii "d12", ascii "d07", ascii "d03", ascii "d08", ascii "d09", ascii "d04"] :=
  ⟨sortCVEs_perm intSize reverseSort cveList,
    (sortCVEs_pairwise intSize reverseSort cveList).chain', by decide, by decide, by decide⟩

/-! ## Formatting and filtering -/

theorem foldl_formatted (sh : Shared) (U : UnicodeTables) (filter : GoString)
    (l : List CVE) (acc : GoString) :
    l.foldl (fun cveString cve =>
        if passesFilter U filter cve then cveString ++ cve.ToFormattedString sh else cveString) acc
      = acc ++ ((l.filter (passesFilter U filter)).map (CVE.ToFormattedString sh)).flatten := by
  induction l generalizing acc with
  | nil => simp
  | cons c rest ih =>
    simp only [List.foldl_cons, List.filter_cons]
    rw [ih]
    split <;> simp

theorem getFormattedCVEs_eq (sh : Shared) (U : UnicodeTables) (l : List CVE) (filter : GoString) :
    getFormattedCVEs sh U l filter
      = ((l.filter (passesFilter U filter)).map (CVE.ToFormattedString sh)).flatten := by
  unfold getFormattedCVEs
  rw [foldl_formatted, List.nil_append]

theorem Index_singleton_of_not_mem (d : Nat) (s : GoString) (h : d ∉ s) : Index s [d] = -1 := by
  induction s with
  | nil => simp [Index]
  | cons b rest ih =>
    have hb : ¬ d = b := fun e => h (e ▸ List.mem_cons_self _ _)
    have hrest : d ∉ rest := fun e => h (List.mem_cons_of_mem _ e)
    simp [Index, ih hrest, List.isPrefixOf, hb]


theorem dot_not_mem_mapLoop (U : UnicodeTables) (hU : ∀ r, 0x80 ≤ r → U.toLower r ≠ 0x2E)
    (fuel : Nat) (s : GoString) (h : 0x2E ∉ s) :
    0x2E ∉ mapLoop (unicodeToLower U) fuel s := by
  induction fuel generalizing s with
  | zero => cases s <;> simp [mapLoop]
  | succ fuel ih =>
    rcases s with _ | ⟨b, rest⟩
    · simp [mapLoop]
    · simp only [mapLoop, List.mem_append, not_or]
      constructor
      · intro hmem
        have hlow := mem_EncodeRune_ascii _ _ (by omega) hmem
        unfold unicodeToLower at hlow
        split_ifs at hlow with h1 h2
        · omega
        · obtain ⟨r, hr, _⟩ := DecodeRune_fst_ascii (b :: rest) (by omega)
          rw [hlow] at hr
          exact h (hr ▸ List.mem_cons_self _ _)
        · exact hU _ (by omega) hlow
      · apply ih
        intro hmem
        exact h (List.mem_of_mem_drop hmem)

theorem dot_not_mem_ToLower (U : UnicodeTables) (hU : ∀ r, 0x80 ≤ r → U.toLower r ≠ 0x2E)
    (s : GoString) (h : 0x2E ∉ s) : 0x2E ∉ ToLower U s := by
  unfold ToLower
  split_ifs
  · intro hmem
    obtain ⟨c, hc, hcm⟩ := List.mem_map.mp hmem
    split_ifs at hcm
    · omega
    · exact h (hcm ▸ hc)
  · exact h
  · exact dot_not_mem_mapLoop U hU _ s h

theorem ToFormattedString_ne_nil (sh : Shared) (c : CVE) : c.ToFormattedString sh ≠ [] := by
  simp [CVE.ToFormattedString, ascii]

theorem lowercaseWordFilter_of_no_dot (lf : GoString) (h : 0x2E ∉ lf) :
    lowercaseWordFilter lf = ascii " " ++ lf ++ ascii " " := by
  unfold lowercaseWordFilter
  rw [show ascii "." = [0x2E] from rfl, Index_singleton_of_not_mem _ _ h]
  simp

/-- When the lowercased filter has a `.` after its first byte, the test on a
record is the raw substring test on the name and on the description. -/
theorem passesFilter_of_dot_inside (U : UnicodeTables) (f : GoString) (c : CVE)
    (h : Index (ToLower U f) (ascii ".") > 0) :
    passesFilter U f c =
      (Contains (ToLower U c.Name) (ToLower U f) ||
        Contains (ToLower U c.Description) (ToLower U f)) := by
  have hne : f ≠ [] := by
    intro e
    rw [e, show ascii "." = [0x2E] from rfl] at h
    simp [ToLower, Index] at h
  simp [passesFilter, lowercaseWordFilter, h, hne]

/-- C6: an empty filter returns every record. The output is the concatenation,
in list order, of the blocks of all records, and the block of a record holds its
name, then its description, then its link, and ends with an empty line. -/
theorem getFormattedCVEs_empty_filter (sh : Shared) (U : UnicodeTables) (l : List CVE) :
    getFormattedCVEs sh U l [] = (l.map (CVE.ToFormattedString sh)).flatten ∧
    ∀ c : CVE, ∃ a b d : GoString,
      c.ToFormattedString sh =
        a ++ c.Name ++ b ++ c.Description ++ d ++ c.Link ++ sh.Reset ++ ascii "\n\n" := by
  constructor
  · rw [getFormattedCVEs_eq]
    congr 2
    rw [List.filter_eq_self]
    intro c _
    simp [passesFilter]
  · intro c
    exact ⟨ascii "[ " ++ sh.Red, sh.Reset ++ ascii " ]\n", ascii "\n" ++ sh.Cyan, by
      simp [CVE.ToFormattedString, List.append_assoc]⟩

/-- C7 at the filter `.net`, whose `.` is at index 0: the record with the
description `asp.net` is dropped although the lowercased filter is a substring of
its lowercased description; with the filter `p.net` the same record is kept. -/
theorem getFormattedCVEs_dot_at_start (sh : Shared) (U : UnicodeTables) :
    getFormattedCVEs sh U [aspNet] (ascii ".net") = [] ∧
    Contains (ToLower U aspNet.Description) (ToLower U (ascii ".net")) = true ∧
    getFormattedCVEs sh U [aspNet] (ascii "p.net") = aspNet.ToFormattedString sh :=
  ⟨rfl, rfl, rfl⟩

/-- C8 as stated fails: for the filter `log4j` and a record whose description is
the single word `log4j`, the padded description holds the padded filter, and yet
the block of the record is not in the output. -/
theorem getFormattedCVEs_word_at_edge :
    ¬ (getFormattedCVEs sampleShared caselessTables [log4jOnly] (ascii "log4j")
          = log4jOnly.ToFormattedString sampleShared ↔
        (Contains (ToLower caselessTables log4jOnly.Name) (ToLower caselessTables (ascii "log4j"))
            = true ∨
          Contains (ascii " " ++ ToLower caselessTables log4jOnly.Description ++ ascii " ")
            (ascii " " ++ ToLower caselessTables (ascii "log4j") ++ ascii " ") = true)) := by
  decide

/-- C8 as amended: for a non-empty filter without a `.`, a record is kept if and
only if the lowercased filter is a substring of its lowercased name or its
lowercased description, as it is, holds the lowercased filter between two
spaces. The case table is assumed to map no rune above ASCII to `.`. -/
theorem getFormattedCVEs_word_filter (sh : Shared) (U : UnicodeTables)
    (hU : ∀ r, 0x80 ≤ r → U.toLower r ≠ 0x2E) (f : GoString) (hne : f ≠ [])
    (hdot : 0x2E ∉ f) (l : List CVE) :
    getFormattedCVEs sh U l f =
        ((l.filter fun c => Contains (ToLower U c.Name) (ToLower U f) ||
            Contains (ToLower U c.Description) (ascii " " ++ ToLower U f ++ ascii " ")).map
          (CVE.ToFormattedString sh)).flatten ∧
    ∀ c : CVE, getFormattedCVEs sh U [c] f = c.ToFormattedString sh ↔
      (Contains (ToLower U c.Name) (ToLower U f) = true ∨
        Contains (ToLower U c.Description) (ascii " " ++ ToLower U f ++ ascii " ") = true) := by
  have hpass : ∀ c : CVE, passesFilter U f c =
      (Contains (ToLower U c.Name) (ToLower U f) ||
        Contains (ToLower U c.Description) (ascii " " ++ ToLower U f ++ ascii " ")) := by
    intro c
    simp [passesFilter, hne, lowercaseWordFilter_of_no_dot _ (dot_not_mem_ToLower U hU f hdot)]
  constructor
  · rw [getFormattedCVEs_eq]
    congr 2
    exact List.filter_congr (fun c _ => hpass c)
  · intro c
    rw [getFormattedCVEs_eq]
    simp only [List.filter_cons, List.filter_nil, hpass c]
    split <;> rename_i hc
    · simp only [List.map_cons, List.map_nil, List.flatten_cons, List.flatten_nil,
        List.append_nil, true_iff]
      simpa [Bool.or_eq_true] using hc
    · simp only [List.map_nil, List.flatten_nil]
      constructor
      · intro e; exact absurd e.symm (ToFormattedString_ne_nil sh c)
      · intro hor
        exact absurd (by simpa [Bool.or_eq_true] using hor) hc

/-- Witness of the amended C8: the filter `log4j` on two records. -/
theorem getFormattedCVEs_word_filter_witness :
    (∀ r, 0x80 ≤ r → caselessTables.toLower r ≠ 0x2E) ∧ ascii "log4j" ≠ [] ∧
    0x2E ∉ ascii "log4j" ∧
    getFormattedCVEs sampleShared caselessTables [log4jOnly, log4jInside] (ascii "log4j") =
      log4jInside.ToFormattedString sampleShared :=
  have hU : ∀ r, 0x80 ≤ r → caselessTables.toLower r ≠ 0x2E := by
    intro r hr e
    simp only [caselessTables, id] at e
    omega
  ⟨hU, by decide, by decide,
    ((getFormattedCVEs_word_filter sampleShared caselessTables hU (ascii "log4j") (by decide)
      (by decide) [log4jOnly, log4jInside]).1).trans (by decide)⟩

/-! ## The cache -/

theorem replaceFrom_single (o : Nat) (new s : GoString) :
    replaceFrom [o] new 0 s = (s.map fun b => if b = o then new else [b]).flatten := by
  induction s with
  | nil => rfl
  | cons b rest ih =>
    by_cases h : o = b
    · subst h; simp [replaceFrom, List.isPrefixOf, ih]
    · have h2 : ¬ b = o := fun e => h e.symm
      simp [replaceFrom, List.isPrefixOf, ih, h, h2]

theorem not_mem_Replace_single (x o n : Nat) (s : GoString) (hxn : x ≠ n)
    (h : x = o ∨ x ∉ s) : x ∉ Replace s [o] [n] := by
  unfold Replace
  rw [replaceFrom_single]
  induction s with
  | nil => simp
  | cons b rest ih =>
    have ih2 := ih (h.imp id fun hx hm => hx (List.mem_cons_of_mem _ hm))
    simp only [List.map_cons, List.flatten_cons, List.mem_append, not_or]
    refine ⟨?_, ih2⟩
    split
    · simpa using hxn
    · rename_i hbo
      rcases h with h | h
      · simp only [List.mem_singleton]
        intro e; exact hbo (e.symm.trans h)
      · simp only [List.mem_singleton]
        intro e; exact h (e ▸ List.mem_cons_self _ _)

/-- C9 on the code: no `/` is left in the file name, for any keywords; the
backslash of the keyword `a\b` is left in it. -/
theorem cacheFilename_keeps_backslash :
    (∀ (splitKeys : Bool) (keywords : List GoString),
      0x2F ∉ cacheFilename (joinedKeywords splitKeys keywords)) ∧
    cacheFilename (joinedKeywords true [backslashKeyword]) = backslashKeyword ∧
    cacheFilename (joinedKeywords false [backslashKeyword]) = backslashKeyword ∧
    0x5C ∈ backslashKeyword ∧
    cachePath (ascii "/tmp") 0x2F (cacheFilename (joinedKeywords true [backslashKeyword])) =
      ascii "/tmp/tmpPrevCveResults/a\\b.json" := by
  refine ⟨?_, by decide, by decide, by decide, by decide⟩
  intro splitKeys keywords
  unfold cacheFilename
  rw [show ascii " " = [0x20] from rfl, show ascii "_" = [0x5F] from rfl,
    show ascii "/" = [0x2F] from rfl]
  apply not_mem_Replace_single _ _ _ _ (by decide)
  right
  exact not_mem_Replace_single _ _ _ _ (by decide) (Or.inl rfl)

/-- C10 on the code: with one keyword `a/b`, no cache file and `force` unset,
the requests are launched for the keyword `a_b`; with `force` set they are
launched for `a/b`. With two keywords kept apart the list is left as it is. -/
theorem fetchKeywords_changed_by_cache_check (U : UnicodeTables) (keepPrevious : Bool) :
    fetchKeywords U none keepPrevious true [slashKeyword] false = some [[97, 0x5F, 98]] ∧
    fetchKeywords U none keepPrevious true [slashKeyword] true = some [slashKeyword] ∧
    fetchKeywords U none keepPrevious false [slashKeyword] false = some [[97, 0x5F, 98]] ∧
    fetchKeywords U none keepPrevious true [slashKeyword, backslashKeyword] false
      = some [slashKeyword, backslashKeyword] ∧
    (fetchKeywords U none keepPrevious true [slashKeyword] false).map (List.map requestURL)
      = some [ascii "https://cve.mitre.org/cgi-bin/cvekey.cgi?keyword=a_b"] ∧
    (fetchKeywords U none keepPrevious true [slashKeyword] true).map (List.map requestURL)
      = some [ascii "https://cve.mitre.org/cgi-bin/cvekey.cgi?keyword=a/b"] :=
  ⟨rfl, rfl, rfl, rfl, rfl, rfl⟩

set_option maxRecDepth 100000 in
/-- C4 on the code: `saveResults` leaves the bytes of the previous file that lie
beyond the new data. When the file held two records and one record is saved, the
file is not the JSON text of the saved record, and loading it back gives the
empty list. When there was no file, the file is the JSON text of the records. -/
theorem saveResults_keeps_tail (U : UnicodeTables) :
    (∀ (file : Option GoString) (cveList : Option (List CVE)),
      saveResults file cveList =
        some (cveListToJsonBytes cveList ++
          (file.getD []).drop (cveListToJsonBytes cveList).length)) ∧
    (∀ cveList : Option (List CVE), saveResults none cveList = some (cveListToJsonBytes cveList)) ∧
    saveResults (some (cveListToJsonBytes (some log4jRows))) (some [log4jOnly])
      ≠ some (cveListToJsonBytes (some [log4jOnly])) ∧
    (saveResults (some (cveListToJsonBytes (some log4jRows))) (some [log4jOnly])).map
      (jsonBytesToCveList U) = some (some []) ∧
    jsonBytesToCveList U (cveListToJsonBytes (some [log4jOnly])) = some [log4jOnly] := by
  refine ⟨fun _ _ => rfl, fun cveList => ?_, fun h => ?_, rfl, rfl⟩
  · simp [saveResults]
  · have hlen : (some 212 : Option Nat) = some 110 := congrArg (Option.map List.length) h
    exact absurd hlen (by decide)

/-- C3 as stated fails: a record whose name is the byte `0xFF` comes back with the
name `U+FFFD` (three bytes), the encoder having replaced the invalid byte. -/
theorem cache_round_trip_invalid_utf8 :
    jsonBytesToCveList caselessTables (cveListToJsonBytes (some [invalidNameRecord])) =
      some [⟨[0xEF, 0xBF, 0xBD], ascii "desc", ascii "/link"⟩] ∧
    jsonBytesToCveList caselessTables (cveListToJsonBytes (some [invalidNameRecord])) ≠
      some [invalidNameRecord] := by
  have h : jsonBytesToCveList caselessTables (cveListToJsonBytes (some [invalidNameRecord])) =
      some [⟨[0xEF, 0xBF, 0xBD], ascii "desc", ascii "/link"⟩] := rfl
  refine ⟨h, ?_⟩
  rw [h]
  decide

/-- C3 as amended: for a slice of records whose names, descriptions and links
are valid UTF-8, `jsonBytesToCveList (cveListToJsonBytes l)` is `l`: the same
records in the same order, field for field; the `nil` slice and the empty slice
come back as they are. -/
theorem cache_round_trip_valid (U : UnicodeTables) (cveList : Option (List CVE))
    (hv : ∀ c ∈ cveList.getD [], ValidString c.Name = true ∧ ValidString c.Description = true ∧
      ValidString c.Link = true) :
    jsonBytesToCveList U (cveListToJsonBytes cveList) = cveList := by
  unfold jsonBytesToCveList cveListToJsonBytes
  rw [Unmarshal_MarshalIndent U cveList hv]

/-- Witness of the amended C3: two records with a two-byte character, escaped
characters and an empty field. -/
theorem cache_round_trip_valid_witness :
    (∀ c ∈ (some accentRecords).getD [], ValidString c.Name = true ∧
      ValidString c.Description = true ∧ ValidString c.Link = true) ∧
    jsonBytesToCveList caselessTables (cveListToJsonBytes (some accentRecords)) =
      some accentRecords :=
  have hv : ∀ c ∈ (some accentRecords).getD [], ValidString c.Name = true ∧
      ValidString c.Description = true ∧ ValidString c.Link = true := by decide
  ⟨hv, cache_round_trip_valid caselessTables (some accentRecords) hv⟩

end PenBins
